import Mathlib

/-!
Verification of the nex lexer generator (github.com/liran-funaro/nex).

This file shallowly embeds the parts of the repository that the checked
claims are about:

* the runtime scanner of the generated lexer (the `writer` package
  template: `isWord`, `loadNextAsserts`, `consumeRune`, `consumeAsserts`,
  `checkAccept`, `resetBuffer`, `scan`),
* the interval-insertion algorithm of the DFA builder
  (`graph.appendLimits` / `graph.insertLimits`),
* the subset construction (`graph.BuildDfa` and the `dfaBuilder` methods),
* graph compaction (`graph.compactGraph`),
* the nex source parser (`parser.ParseNex` and the `parser` methods).

Go's mutable state is passed explicitly; Go maps are association lists in
insertion order; `rune` is `Char` in the scanner model and `Int` in the
graph model (where limit arithmetic is used); non-structural Go loops take
an explicit fuel argument (the loop simply stops when the fuel runs out,
and theorems are either fuel-independent or instantiate a sufficient
fuel); an out-of-range slice index, which panics in Go, is modelled by a
default value that produces no transition.
-/

namespace Writer

/-- Bitmask of zero-width assertions (`asserts = uint64` in the generated lexer). -/
abbrev Asserts := Nat

def aStartText : Asserts := 1
def aEndText : Asserts := 2
def aStartLine : Asserts := 4
def aEndLine : Asserts := 8
def aWordBoundary : Asserts := 16
def aNoWordBoundary : Asserts := 32

/-- `isWord` from the generated lexer runtime (`lexer.go` template). -/
def isWord (r : Char) : Bool :=
  ('a' ≤ r && r ≤ 'z') || ('A' ≤ r && r ≤ 'Z') || ('0' ≤ r && r ≤ '9')

/-- The zero rune, Go's default value for a `rune` variable. -/
def nullRune : Char := Char.ofNat 0

/-- The assertion mask `loadNextAsserts` appends for cursor position `pos`
    of the rune buffer `runes` (straight-line transcription of its body). -/
def nextAsserts (runes : List Char) (pos : Nat) : Asserts :=
  let a1 : Asserts := if pos = 0 then aStartText ||| aStartLine else 0
  let r1 : Char := if pos = 0 then nullRune else runes.getD (pos - 1) nullRune
  let a2 : Asserts := if pos = runes.length then a1 ||| (aEndText ||| aEndLine) else a1
  let r2 : Char := if pos = runes.length then nullRune else runes.getD pos nullRune
  let a3 : Asserts := if r1 = '\n' then a2 ||| aStartLine else a2
  let a4 : Asserts := if r2 = '\n' then a3 ||| aEndLine else a3
  if isWord r1 ≠ isWord r2 then a4 ||| aWordBoundary else a4 ||| aNoWordBoundary

/-- Modelled from the spec's words, for comparison with the code: the claim
    says a word-rune is one of `[A-Za-z0-9_]`. -/
def specIsWord (r : Char) : Bool :=
  ('a' ≤ r && r ≤ 'z') || ('A' ≤ r && r ≤ 'Z') || ('0' ≤ r && r ≤ '9') || r = '_'

/-- The rune before the cursor; the zero (non-word, non-newline) rune when
    absent.  This is the value `loadNextAsserts` stores in `r1`. -/
def preRune (runes : List Char) (pos : Nat) : Char :=
  if pos = 0 then nullRune else runes.getD (pos - 1) nullRune

/-- The rune after the cursor; the zero (non-word, non-newline) rune when
    absent.  This is the value `loadNextAsserts` stores in `r2`. -/
def postRune (runes : List Char) (pos : Nat) : Char :=
  if pos = runes.length then nullRune else runes.getD pos nullRune

/-- The boolean skeleton of `nextAsserts`: the mask as a function of the
    five conditions `loadNextAsserts` tests. -/
def maskCore (atStart atEnd n1 n2 : Bool) (w1 w2 : Bool) : Asserts :=
  let a1 : Asserts := if atStart then aStartText ||| aStartLine else 0
  let a2 : Asserts := if atEnd then a1 ||| (aEndText ||| aEndLine) else a1
  let a3 : Asserts := if n1 then a2 ||| aStartLine else a2
  let a4 : Asserts := if n2 then a3 ||| aEndLine else a3
  if w1 ≠ w2 then a4 ||| aWordBoundary else a4 ||| aNoWordBoundary

theorem nextAsserts_eq_maskCore (runes : List Char) (pos : Nat) :
    nextAsserts runes pos =
      maskCore (pos = 0) (pos = runes.length)
        (preRune runes pos = '\n') (postRune runes pos = '\n')
        (isWord (preRune runes pos)) (isWord (postRune runes pos)) := by
  unfold nextAsserts maskCore preRune postRune
  by_cases h0 : pos = 0 <;> by_cases hL : pos = runes.length <;>
    simp only [h0, hL, if_pos, if_neg, if_true, if_false, ite_true, ite_false] <;>
    simp [h0, hL]

theorem maskCore_word_bits (atStart atEnd n1 n2 w1 w2 : Bool) :
    ((maskCore atStart atEnd n1 n2 w1 w2 &&& aWordBoundary ≠ 0) ↔ w1 ≠ w2) ∧
    ((maskCore atStart atEnd n1 n2 w1 w2 &&& aNoWordBoundary ≠ 0) ↔ w1 = w2) := by
  revert atStart atEnd n1 n2 w1 w2
  decide

end Writer

/-- C5 counterexample: the claim says word-runes are `[A-Za-z0-9_]`, so at a
    cursor between `'_'` and `'a'` the word-ness on the two sides is equal and
    the no-word-boundary assertion should hold.  The code's `isWord` omits the
    underscore, so it sets the word-boundary bit there instead. -/
theorem Writer.nextAsserts_underscore_counterexample :
    Writer.specIsWord '_' = Writer.specIsWord 'a' ∧
    Writer.nextAsserts ['_', 'a'] 1 &&& Writer.aWordBoundary ≠ 0 ∧
    Writer.nextAsserts ['_', 'a'] 1 &&& Writer.aNoWordBoundary = 0 := by
  refine ⟨by decide, by decide, by decide⟩

/-- C5 (amended): the word-boundary assertion holds at a cursor exactly when the
    word-ness of the rune before it differs from the word-ness of the rune after
    it, absent runes counting as non-word, where a word-rune is `[A-Za-z0-9]`
    (ASCII letters and digits, without underscore); the no-word-boundary
    assertion holds exactly otherwise. -/
theorem Writer.nextAsserts_wordBoundary_iff (runes : List Char) (pos : Nat) :
    ((Writer.nextAsserts runes pos &&& Writer.aWordBoundary ≠ 0) ↔
      Writer.isWord (Writer.preRune runes pos) ≠
        Writer.isWord (Writer.postRune runes pos)) ∧
    ((Writer.nextAsserts runes pos &&& Writer.aNoWordBoundary ≠ 0) ↔
      Writer.isWord (Writer.preRune runes pos) =
        Writer.isWord (Writer.postRune runes pos)) := by
  rw [Writer.nextAsserts_eq_maskCore]
  exact Writer.maskCore_word_bits _ _ _ _ _ _

namespace Writer

/-- One state of the generated DFA (`type state` in the lexer template). -/
structure DState where
  accept : Int
  assertMask : Asserts
  assertStep : Option (Asserts → Int)
  runeStep : Option (Char → Int)

/-- The state used when Go would panic on an out-of-range state index:
    it accepts nothing and has no transitions. -/
def deadState : DState :=
  { accept := -1, assertMask := 0, assertStep := none, runeStep := none }

/-- The scanner state (`type scanner` in the lexer template).  The
    `bufio.Reader` is the rune list `input`; an empty `input` plays the
    role of `s.in == nil` (EOF).  `dfa.nest` is not modelled: each
    `scanner` value drives a single DFA, and a nested scan is a separate
    scanner run on the matched slice. -/
structure Scanner where
  states : List DState
  runes : List Char
  asserts : List Asserts
  pos : Nat
  consumedAssert : Bool
  minCapture : Nat
  matchPos : Int
  matchAccept : Int
  line : Nat
  column : Nat
  input : List Char

/-- `s.dfa.states[st]` (Go panics when `st` is out of range; the model
    yields `deadState`, which produces no transition). -/
def stateAt (s : Scanner) (st : Int) : DState :=
  if st < 0 then deadState else s.states.getD st.toNat deadState

/-- `loadNextRune`. -/
def loadNextRune (s : Scanner) : Scanner :=
  if s.pos < s.runes.length then s
  else
    match s.input with
    | [] => s
    | r :: rest => { s with runes := s.runes ++ [r], input := rest }

/-- `loadNextAsserts` (must come after `loadNextRune`). -/
def loadNextAsserts (s : Scanner) : Scanner :=
  if s.pos < s.asserts.length then s
  else { s with asserts := s.asserts ++ [nextAsserts s.runes s.pos] }

/-- `loadNext`. -/
def loadNext (s : Scanner) : Scanner := loadNextAsserts (loadNextRune s)

/-- `consumeRune`; Go's `s.pos == len(s.runes)` test is `≤` here so that a
    cursor beyond the buffer (a panic in Go) consumes nothing. -/
def consumeRune (s : Scanner) : Option Char × Scanner :=
  let s := loadNext s
  if s.runes.length ≤ s.pos then (none, s)
  else (some (s.runes.getD s.pos nullRune),
        { s with pos := s.pos + 1, consumedAssert := false })

/-- `consumeAsserts`. -/
def consumeAsserts (s : Scanner) (mask : Asserts) : Asserts × Scanner :=
  let s := loadNext s
  if s.consumedAssert ∨ s.asserts.length ≤ s.pos then (0, s)
  else (s.asserts.getD s.pos 0 &&& mask, { s with consumedAssert := true })

/-- `checkAccept` (the local `accIndex` is written out as `(stateAt s st).accept`). -/
def checkAccept (st : Int) (s : Scanner) : Scanner :=
  if st < 0 then s
  else if 0 < (stateAt s st).accept ∧
      (s.matchPos < (s.pos : Int) ∨ (stateAt s st).accept < s.matchAccept) then
    { s with matchAccept := (stateAt s st).accept, matchPos := (s.pos : Int) }
  else s

/-- Line/column update over the shifted-out runes (`resetBuffer`'s loop). -/
def advanceLineCol (rs : List Char) (line column : Nat) : Nat × Nat :=
  match rs with
  | [] => (line, column)
  | r :: rest =>
    if r = '\n' then advanceLineCol rest (line + 1) 0
    else advanceLineCol rest line (column + 1)

/-- `resetBuffer`. -/
def resetBuffer (i : Nat) (s : Scanner) : Scanner :=
  let lc := advanceLineCol (s.runes.take i) s.line s.column
  let t := loadNext { s with line := lc.1, column := lc.2 }
  { t with runes := t.runes.drop i, asserts := t.asserts.drop i,
           pos := 0, consumedAssert := false,
           minCapture := if i = 0 then 1 else 0 }

/-- The accept label `checkAccept st` reads (`-1` when `st` is the dead state). -/
def accOf (s : Scanner) (st : Int) : Int :=
  if st < 0 then -1 else (stateAt s st).accept

/-- The assert half of one iteration of the scanner's progress loop.
    Returns (new DFA state, scanner, madeProgress). -/
def doAssert (st : Int) (s : Scanner) : Int × Scanner × Bool :=
  match (stateAt s st).assertStep with
  | none => (st, s, false)
  | some f =>
    let p := consumeAsserts s (stateAt s st).assertMask
    if p.1 ≠ 0 then (f p.1, checkAccept (f p.1) p.2, true)
    else (st, p.2, false)

/-- The rune half of one iteration of the scanner's progress loop. -/
def doRune (st : Int) (s : Scanner) : Int × Scanner × Bool :=
  match (stateAt s st).runeStep with
  | none => (st, s, false)
  | some g =>
    match consumeRune s with
    | (none, s1) => (st, s1, false)
    | (some r, s1) => (g r, checkAccept (g r) s1, true)

/-- The scanner's inner progress loop (`for madeProgress && st >= 0`), with
    fuel for the unbounded Go loop.  Alongside the faithful result it also
    returns the trace of `(cursor, accept label)` pairs that the
    `checkAccept` calls observed, so the longest-match property can be
    stated about the whole attempt. -/
def attemptLoop (fuel : Nat) (st : Int) (s : Scanner) :
    Int × Scanner × List (Int × Int) :=
  match fuel with
  | 0 => (st, s, [])
  | fuel + 1 =>
    if st < 0 then (st, s, [])
    else
      let r1 := doAssert st s
      let r2 := doRune r1.1 r1.2.1
      let tr := (if r1.2.2 then [((r1.2.1.pos : Int), accOf r1.2.1 r1.1)] else []) ++
                (if r2.2.2 then [((r2.2.1.pos : Int), accOf r2.2.1 r2.1)] else [])
      if r1.2.2 || r2.2.2 then
        let rest := attemptLoop fuel r2.1 r2.2.1
        (rest.1, rest.2.1, tr ++ rest.2.2)
      else (r2.1, r2.2.1, tr)

/-- An observable event of `scan`: an emitted frame (`appendFrame`) or a rune
    discarded by the advance-by-one path (the `resetBuffer(1)` branch).  The
    discarded runes are recorded so the reconstruction property can be
    stated; the Go code channels only the frames. -/
inductive ScanEv where
  | tok (accept : Int) (text : List Char) (line column : Nat)
  | skip (r : Char)
deriving DecidableEq, Repr

/-- The scanner's outer loop (`scan`) for a scanner without nested DFAs and
    with no cancellation.  `afuel` bounds the inner progress loop, `fuel`
    the outer loop.  A recorded match longer than the buffer, on which the
    Go slice `s.runes[:s.matchPos]` would panic, stops the scan. -/
def scan (fuel afuel : Nat) (s : Scanner) : List ScanEv :=
  match fuel with
  | 0 => []
  | fuel + 1 =>
    let s0 := { s with matchPos := -1, matchAccept := -1 }
    let r := attemptLoop afuel 0 s0
    let s1 := r.2.1
    if s1.matchPos < (s1.minCapture : Int) then
      if s1.runes.length = 0 then [.tok (-1) [] s1.line s1.column]
      else .skip (s1.runes.getD 0 nullRune) :: scan fuel afuel (resetBuffer 1 s1)
    else if s1.runes.length < s1.matchPos.toNat then []
    else
      .tok s1.matchAccept (s1.runes.take s1.matchPos.toNat) s1.line s1.column ::
        scan fuel afuel (resetBuffer s1.matchPos.toNat s1)

/-- A fresh scanner as built by `NewLexerWithInit` (Go zero values for all
    bookkeeping fields). -/
def initScanner (states : List DState) (input : List Char) : Scanner :=
  { states := states, runes := [], asserts := [], pos := 0,
    consumedAssert := false, minCapture := 0, matchPos := 0,
    matchAccept := 0, line := 0, column := 0, input := input }

/-- `scan` run on a fresh scanner with enough fuel for the outer loop
    (each outer iteration either consumes a buffered or pending rune or
    flips `minCapture`). -/
def scanInput (states : List DState) (input : List Char) : List ScanEv :=
  scan (2 * input.length + 2) (2 * input.length + 2) (initScanner states input)

/-- The runes an event accounts for: a frame's matched text, a skipped rune. -/
def evText : ScanEv → List Char
  | .tok _ t _ _ => t
  | .skip r => [r]

end Writer

namespace Writer

theorem loadNextRune_fields (s : Scanner) :
    (loadNextRune s).pos = s.pos ∧ (loadNextRune s).consumedAssert = s.consumedAssert ∧
    (loadNextRune s).minCapture = s.minCapture ∧ (loadNextRune s).matchPos = s.matchPos ∧
    (loadNextRune s).matchAccept = s.matchAccept ∧ (loadNextRune s).states = s.states ∧
    (loadNextRune s).line = s.line ∧ (loadNextRune s).column = s.column ∧
    (loadNextRune s).asserts = s.asserts := by
  simp only [loadNextRune]
  split
  · exact ⟨rfl, rfl, rfl, rfl, rfl, rfl, rfl, rfl, rfl⟩
  · split <;> exact ⟨rfl, rfl, rfl, rfl, rfl, rfl, rfl, rfl, rfl⟩

theorem loadNextRune_concat (s : Scanner) :
    (loadNextRune s).runes ++ (loadNextRune s).input = s.runes ++ s.input := by
  simp only [loadNextRune]
  split
  · rfl
  · split
    · rfl
    · simp_all

theorem loadNextRune_runes_ext (s : Scanner) :
    ∃ t, (loadNextRune s).runes = s.runes ++ t := by
  simp only [loadNextRune]
  split
  · exact ⟨[], by simp⟩
  · split
    · exact ⟨[], by simp⟩
    · exact ⟨[_], rfl⟩

theorem loadNextAsserts_fields (s : Scanner) :
    (loadNextAsserts s).pos = s.pos ∧ (loadNextAsserts s).consumedAssert = s.consumedAssert ∧
    (loadNextAsserts s).minCapture = s.minCapture ∧ (loadNextAsserts s).matchPos = s.matchPos ∧
    (loadNextAsserts s).matchAccept = s.matchAccept ∧ (loadNextAsserts s).states = s.states ∧
    (loadNextAsserts s).line = s.line ∧ (loadNextAsserts s).column = s.column ∧
    (loadNextAsserts s).runes = s.runes ∧ (loadNextAsserts s).input = s.input := by
  simp only [loadNextAsserts]
  split <;> exact ⟨rfl, rfl, rfl, rfl, rfl, rfl, rfl, rfl, rfl, rfl⟩

theorem loadNext_fields (s : Scanner) :
    (loadNext s).pos = s.pos ∧ (loadNext s).consumedAssert = s.consumedAssert ∧
    (loadNext s).minCapture = s.minCapture ∧ (loadNext s).matchPos = s.matchPos ∧
    (loadNext s).matchAccept = s.matchAccept ∧ (loadNext s).states = s.states ∧
    (loadNext s).line = s.line ∧ (loadNext s).column = s.column := by
  have h1 := loadNextRune_fields s
  have h2 := loadNextAsserts_fields (loadNextRune s)
  simp only [loadNext]
  obtain ⟨a1, a2, a3, a4, a5, a6, a7, a8, -⟩ := h1
  obtain ⟨b1, b2, b3, b4, b5, b6, b7, b8, -, -⟩ := h2
  exact ⟨b1.trans a1, b2.trans a2, b3.trans a3, b4.trans a4, b5.trans a5,
    b6.trans a6, b7.trans a7, b8.trans a8⟩

theorem loadNext_concat (s : Scanner) :
    (loadNext s).runes ++ (loadNext s).input = s.runes ++ s.input := by
  have h2 := loadNextAsserts_fields (loadNextRune s)
  simp only [loadNext]
  rw [h2.2.2.2.2.2.2.2.2.1, h2.2.2.2.2.2.2.2.2.2]
  exact loadNextRune_concat s

theorem loadNext_runes_ext (s : Scanner) :
    ∃ t, (loadNext s).runes = s.runes ++ t := by
  have h2 := loadNextAsserts_fields (loadNextRune s)
  simp only [loadNext]
  rw [h2.2.2.2.2.2.2.2.2.1]
  exact loadNextRune_runes_ext s

theorem loadNext_sum (s : Scanner) :
    (loadNext s).runes.length + (loadNext s).input.length =
      s.runes.length + s.input.length := by
  have h := congrArg List.length (loadNext_concat s)
  simpa using h

theorem checkAccept_fields (st : Int) (s : Scanner) :
    (checkAccept st s).pos = s.pos ∧ (checkAccept st s).consumedAssert = s.consumedAssert ∧
    (checkAccept st s).minCapture = s.minCapture ∧ (checkAccept st s).states = s.states ∧
    (checkAccept st s).line = s.line ∧ (checkAccept st s).column = s.column ∧
    (checkAccept st s).runes = s.runes ∧ (checkAccept st s).input = s.input ∧
    (checkAccept st s).asserts = s.asserts := by
  simp only [checkAccept]
  split
  · exact ⟨rfl, rfl, rfl, rfl, rfl, rfl, rfl, rfl, rfl⟩
  · split <;> exact ⟨rfl, rfl, rfl, rfl, rfl, rfl, rfl, rfl, rfl⟩

/-- `checkAccept` performs exactly one step of the best-match fold. -/
def bestStep (ma : Int × Int) (e : Int × Int) : Int × Int :=
  if 0 < e.2 ∧ (ma.1 < e.1 ∨ e.2 < ma.2) then e else ma

theorem checkAccept_match (st : Int) (s : Scanner) :
    ((checkAccept st s).matchPos, (checkAccept st s).matchAccept) =
      bestStep (s.matchPos, s.matchAccept) ((s.pos : Int), accOf s st) := by
  simp only [checkAccept, bestStep, accOf]
  by_cases h : st < 0
  · simp only [if_pos h]
    have : ¬ (0 < (-1 : Int) ∧ ((s.matchPos < (s.pos : Int) ∨ (-1 : Int) < s.matchAccept))) := by
      intro hc
      exact absurd hc.1 (by decide)
    rw [if_neg this]
  · simp only [if_neg h]
    split <;> rfl

end Writer

namespace Writer

theorem consumeAsserts_snd (s : Scanner) (m : Asserts) :
    (consumeAsserts s m).2.runes = (loadNext s).runes ∧
    (consumeAsserts s m).2.input = (loadNext s).input ∧
    (consumeAsserts s m).2.asserts = (loadNext s).asserts ∧
    (consumeAsserts s m).2.pos = s.pos ∧
    (consumeAsserts s m).2.minCapture = s.minCapture ∧
    (consumeAsserts s m).2.states = s.states ∧
    (consumeAsserts s m).2.matchPos = s.matchPos ∧
    (consumeAsserts s m).2.matchAccept = s.matchAccept := by
  have hl := loadNext_fields s
  simp only [consumeAsserts]
  split
  · exact ⟨rfl, rfl, rfl, hl.1, hl.2.2.1, hl.2.2.2.2.2.1, hl.2.2.2.1, hl.2.2.2.2.1⟩
  · exact ⟨rfl, rfl, rfl, hl.1, hl.2.2.1, hl.2.2.2.2.2.1, hl.2.2.2.1, hl.2.2.2.2.1⟩

theorem consumeRune_snd (s : Scanner) :
    (consumeRune s).2.runes = (loadNext s).runes ∧
    (consumeRune s).2.input = (loadNext s).input ∧
    (consumeRune s).2.minCapture = s.minCapture ∧
    (consumeRune s).2.states = s.states ∧
    (consumeRune s).2.matchPos = s.matchPos ∧
    (consumeRune s).2.matchAccept = s.matchAccept ∧
    s.pos ≤ (consumeRune s).2.pos ∧
    ((consumeRune s).1 = none → (consumeRune s).2.pos = s.pos) ∧
    ((consumeRune s).1.isSome →
      (consumeRune s).2.pos = s.pos + 1 ∧
      (consumeRune s).2.pos ≤ (consumeRune s).2.runes.length) := by
  have hl := loadNext_fields s
  simp only [consumeRune]
  split <;> rename_i h
  · exact ⟨rfl, rfl, hl.2.2.1, hl.2.2.2.2.2.1, hl.2.2.2.1, hl.2.2.2.2.1,
      le_of_eq hl.1.symm, fun _ => hl.1, fun hs => by simp at hs⟩
  · refine ⟨rfl, rfl, hl.2.2.1, hl.2.2.2.2.2.1, hl.2.2.2.1, hl.2.2.2.2.1,
      ?_, fun hn => by simp at hn, fun _ => ⟨?_, ?_⟩⟩
    · show s.pos ≤ (loadNext s).pos + 1
      rw [hl.1]
      exact Nat.le_succ _
    · show (loadNext s).pos + 1 = s.pos + 1
      rw [hl.1]
    · show (loadNext s).pos + 1 ≤ (loadNext s).runes.length
      omega

theorem accOf_congr (s s2 : Scanner) (st : Int) (h : s.states = s2.states) :
    accOf s st = accOf s2 st := by
  simp only [accOf, stateAt, h]

theorem doAssert_step (st : Int) (s : Scanner) :
    (doAssert st s).2.1.runes ++ (doAssert st s).2.1.input = s.runes ++ s.input ∧
    (doAssert st s).2.1.minCapture = s.minCapture ∧
    (doAssert st s).2.1.states = s.states ∧
    (doAssert st s).2.1.pos = s.pos ∧
    s.runes.length ≤ (doAssert st s).2.1.runes.length ∧
    ((doAssert st s).2.2 = true →
      ((doAssert st s).2.1.matchPos, (doAssert st s).2.1.matchAccept) =
        bestStep (s.matchPos, s.matchAccept)
          (((doAssert st s).2.1.pos : Int), accOf (doAssert st s).2.1 (doAssert st s).1)) ∧
    ((doAssert st s).2.2 = false →
      ((doAssert st s).2.1.matchPos, (doAssert st s).2.1.matchAccept) =
        (s.matchPos, s.matchAccept)) := by
  have hlen : s.runes.length ≤ (loadNext s).runes.length := by
    obtain ⟨t, ht⟩ := loadNext_runes_ext s
    rw [ht]; simp
  obtain ⟨c1, c2, -, c4, c5, c6, c7, c8⟩ := consumeAsserts_snd s (stateAt s st).assertMask
  simp only [doAssert]
  rcases hA : (stateAt s st).assertStep with - | f
  · dsimp only
    exact ⟨rfl, rfl, rfl, rfl, le_refl _, fun h => by simp at h, fun _ => rfl⟩
  · dsimp only
    by_cases hfire : (consumeAsserts s (stateAt s st).assertMask).1 ≠ 0
    · rw [if_pos hfire]
      obtain ⟨d1, -, d3, d4, -, -, d7, d8, -⟩ :=
        checkAccept_fields (f (consumeAsserts s (stateAt s st).assertMask).1)
          (consumeAsserts s (stateAt s st).assertMask).2
      have hcm := checkAccept_match (f (consumeAsserts s (stateAt s st).assertMask).1)
        (consumeAsserts s (stateAt s st).assertMask).2
      refine ⟨?_, ?_, ?_, ?_, ?_, fun _ => ?_, fun h => by simp at h⟩
      · show (checkAccept _ _).runes ++ (checkAccept _ _).input = _
        rw [d7, d8, c1, c2]; exact loadNext_concat s
      · show (checkAccept _ _).minCapture = _
        rw [d3, c5]
      · show (checkAccept _ _).states = _
        rw [d4, c6]
      · show (checkAccept _ _).pos = _
        rw [d1, c4]
      · show s.runes.length ≤ (checkAccept _ _).runes.length
        rw [d7, c1]; exact hlen
      · show ((checkAccept _ _).matchPos, (checkAccept _ _).matchAccept) =
          bestStep (s.matchPos, s.matchAccept)
            (((checkAccept _ _).pos : Int),
              accOf (checkAccept _ _) (f (consumeAsserts s (stateAt s st).assertMask).1))
        rw [hcm, c7, c8, d1,
          accOf_congr _ (consumeAsserts s (stateAt s st).assertMask).2 _ d4]
    · rw [if_neg hfire]
      refine ⟨?_, c5, c6, c4, ?_, fun h => by simp at h, fun _ => ?_⟩
      · show (consumeAsserts s _).2.runes ++ (consumeAsserts s _).2.input = _
        rw [c1, c2]; exact loadNext_concat s
      · show s.runes.length ≤ (consumeAsserts s _).2.runes.length
        rw [c1]; exact hlen
      · show ((consumeAsserts s _).2.matchPos, (consumeAsserts s _).2.matchAccept) =
          (s.matchPos, s.matchAccept)
        rw [c7, c8]

end Writer

namespace Writer

theorem loadNext_runes_le (s : Scanner) :
    s.runes.length ≤ (loadNext s).runes.length := by
  obtain ⟨t, ht⟩ := loadNext_runes_ext s
  rw [ht]; simp

theorem doRune_step (st : Int) (s : Scanner) :
    (doRune st s).2.1.runes ++ (doRune st s).2.1.input = s.runes ++ s.input ∧
    (doRune st s).2.1.minCapture = s.minCapture ∧
    (doRune st s).2.1.states = s.states ∧
    s.pos ≤ (doRune st s).2.1.pos ∧
    (s.pos ≤ s.runes.length →
      (doRune st s).2.1.pos ≤ (doRune st s).2.1.runes.length) ∧
    ((doRune st s).2.2 = true → s.pos + 1 = (doRune st s).2.1.pos ∧
      (doRune st s).2.1.pos ≤ (doRune st s).2.1.runes.length) ∧
    ((doRune st s).2.2 = true →
      ((doRune st s).2.1.matchPos, (doRune st s).2.1.matchAccept) =
        bestStep (s.matchPos, s.matchAccept)
          (((doRune st s).2.1.pos : Int), accOf (doRune st s).2.1 (doRune st s).1)) ∧
    ((doRune st s).2.2 = false →
      ((doRune st s).2.1.matchPos, (doRune st s).2.1.matchAccept) =
        (s.matchPos, s.matchAccept)) := by
  obtain ⟨e1, e2, e3, e4, e5, e6, e7, e8, e9⟩ := consumeRune_snd s
  have hcat := loadNext_concat s
  have hlen := loadNext_runes_le s
  simp only [doRune]
  rcases hR : (stateAt s st).runeStep with - | g
  · dsimp only
    exact ⟨rfl, rfl, rfl, le_refl _, fun h => h, fun h => by simp at h,
      fun h => by simp at h, fun _ => rfl⟩
  · dsimp only
    rcases hc : consumeRune s with ⟨o, s1⟩
    rw [hc] at e1 e2 e3 e4 e5 e6 e7 e8 e9
    dsimp only at e1 e2 e3 e4 e5 e6 e7 e8 e9
    cases o with
    | none =>
      dsimp only
      refine ⟨?_, e3, e4, ?_, ?_, fun h => by simp at h, fun h => by simp at h,
        fun _ => by rw [e5, e6]⟩
      · rw [e1, e2]; exact hcat
      · exact e7
      · intro hp
        rw [e8 rfl, e1]
        exact le_trans hp hlen
    | some r =>
      dsimp only
      have hs := e9 rfl
      obtain ⟨d1, -, d3, d4, -, -, d7, d8, -⟩ := checkAccept_fields (g r) s1
      have hcm := checkAccept_match (g r) s1
      refine ⟨?_, ?_, ?_, ?_, ?_, ?_, fun _ => ?_, fun h => by simp at h⟩
      · rw [d7, d8, e1, e2]; exact hcat
      · rw [d3, e3]
      · rw [d4, e4]
      · rw [d1, hs.1]; exact Nat.le_succ _
      · intro _; rw [d1, d7]; exact hs.2
      · intro _; rw [d1, d7]; exact ⟨hs.1.symm, hs.2⟩
      · rw [hcm, e5, e6, d1, accOf_congr _ s1 _ d4]

theorem doAssert_noStep (st : Int) (s : Scanner)
    (h : (stateAt s st).assertStep = none) : doAssert st s = (st, s, false) := by
  simp only [doAssert, h]

theorem doRune_noStep (st : Int) (s : Scanner)
    (h : (stateAt s st).runeStep = none) : doRune st s = (st, s, false) := by
  simp only [doRune, h]

theorem stateAt_mem (s : Scanner) (st : Int) :
    stateAt s st = deadState ∨ stateAt s st ∈ s.states := by
  simp only [stateAt]
  split
  · exact Or.inl rfl
  · rcases Nat.lt_or_ge st.toNat s.states.length with h | h
    · right
      rw [List.getD_eq_getElem s.states deadState h]
      exact List.getElem_mem h
    · left
      exact List.getD_eq_default s.states deadState h

end Writer

namespace Writer

theorem attemptLoop_inv (fuel : Nat) (st : Int) (s : Scanner) :
    (attemptLoop fuel st s).2.1.runes ++ (attemptLoop fuel st s).2.1.input =
      s.runes ++ s.input ∧
    (attemptLoop fuel st s).2.1.minCapture = s.minCapture ∧
    (attemptLoop fuel st s).2.1.states = s.states ∧
    s.pos ≤ (attemptLoop fuel st s).2.1.pos ∧
    (s.pos ≤ s.runes.length →
      (attemptLoop fuel st s).2.1.pos ≤ (attemptLoop fuel st s).2.1.runes.length) := by
  induction fuel generalizing st s with
  | zero => exact ⟨rfl, rfl, rfl, le_refl _, fun h => h⟩
  | succ n ih =>
    simp only [attemptLoop]
    by_cases hneg : st < 0
    · rw [if_pos hneg]
      exact ⟨rfl, rfl, rfl, le_refl _, fun h => h⟩
    · rw [if_neg hneg]
      obtain ⟨a1, a2, a3, a4, a5, -, -⟩ := doAssert_step st s
      obtain ⟨b1, b2, b3, b4, b5, -, -, -⟩ :=
        doRune_step (doAssert st s).1 (doAssert st s).2.1
      by_cases hprog :
          ((doAssert st s).2.2 || (doRune (doAssert st s).1 (doAssert st s).2.1).2.2) = true
      · rw [if_pos hprog]
        obtain ⟨i1, i2, i3, i4, i5⟩ :=
          ih (doRune (doAssert st s).1 (doAssert st s).2.1).1
            (doRune (doAssert st s).1 (doAssert st s).2.1).2.1
        dsimp only
        refine ⟨i1.trans (b1.trans a1), i2.trans (b2.trans a2), i3.trans (b3.trans a3),
          ?_, ?_⟩
        · calc s.pos = (doAssert st s).2.1.pos := a4.symm
            _ ≤ (doRune (doAssert st s).1 (doAssert st s).2.1).2.1.pos := b4
            _ ≤ _ := i4
        · intro hp
          have hA : (doAssert st s).2.1.pos ≤ (doAssert st s).2.1.runes.length := by
            rw [a4]
            exact le_trans hp a5
          exact i5 (b5 hA)
      · rw [if_neg hprog]
        dsimp only
        refine ⟨b1.trans a1, b2.trans a2, b3.trans a3, ?_, ?_⟩
        · calc s.pos = (doAssert st s).2.1.pos := a4.symm
            _ ≤ _ := b4
        · intro hp
          refine b5 ?_
          rw [a4]
          exact le_trans hp a5

theorem attemptLoop_fold (fuel : Nat) (st : Int) (s : Scanner) :
    ((attemptLoop fuel st s).2.1.matchPos, (attemptLoop fuel st s).2.1.matchAccept) =
      List.foldl bestStep (s.matchPos, s.matchAccept) (attemptLoop fuel st s).2.2 := by
  induction fuel generalizing st s with
  | zero => rfl
  | succ n ih =>
    simp only [attemptLoop]
    by_cases hneg : st < 0
    · rw [if_pos hneg]
      rfl
    · rw [if_neg hneg]
      obtain ⟨-, -, -, -, -, a6, a7⟩ := doAssert_step st s
      obtain ⟨-, -, -, -, -, -, b7, b8⟩ :=
        doRune_step (doAssert st s).1 (doAssert st s).2.1
      have hstep :
          ((doRune (doAssert st s).1 (doAssert st s).2.1).2.1.matchPos,
            (doRune (doAssert st s).1 (doAssert st s).2.1).2.1.matchAccept) =
          List.foldl bestStep (s.matchPos, s.matchAccept)
            ((if (doAssert st s).2.2 then
                [(((doAssert st s).2.1.pos : Int), accOf (doAssert st s).2.1 (doAssert st s).1)]
              else []) ++
             (if (doRune (doAssert st s).1 (doAssert st s).2.1).2.2 then
                [(((doRune (doAssert st s).1 (doAssert st s).2.1).2.1.pos : Int),
                  accOf (doRune (doAssert st s).1 (doAssert st s).2.1).2.1
                    (doRune (doAssert st s).1 (doAssert st s).2.1).1)]
              else []) ) := by
        cases hA2 : (doAssert st s).2.2 with
        | false =>
          rw [if_neg Bool.false_ne_true, List.nil_append]
          cases hR2 : (doRune (doAssert st s).1 (doAssert st s).2.1).2.2 with
          | false =>
            rw [if_neg Bool.false_ne_true, List.foldl_nil]
            exact (b8 hR2).trans (a7 hA2)
          | true =>
            rw [if_pos rfl, List.foldl_cons, List.foldl_nil]
            rw [b7 hR2, a7 hA2]
        | true =>
          rw [if_pos rfl, List.cons_append, List.nil_append]
          cases hR2 : (doRune (doAssert st s).1 (doAssert st s).2.1).2.2 with
          | false =>
            rw [if_neg Bool.false_ne_true, List.foldl_cons, List.foldl_nil]
            exact (b8 hR2).trans (a6 hA2)
          | true =>
            rw [if_pos rfl, List.foldl_cons, List.foldl_cons, List.foldl_nil]
            rw [b7 hR2, a6 hA2]
      by_cases hprog :
          ((doAssert st s).2.2 || (doRune (doAssert st s).1 (doAssert st s).2.1).2.2) = true
      · rw [if_pos hprog]
        dsimp only
        rw [List.foldl_append, ← hstep]
        exact ih _ _
      · rw [if_neg hprog]
        dsimp only
        exact hstep

end Writer

namespace Writer

theorem attemptLoop_trace (fuel : Nat) (st : Int) (s : Scanner) :
    (∀ e ∈ (attemptLoop fuel st s).2.2,
      (s.pos : Int) ≤ e.1 ∧ 0 ≤ e.1 ∧
        e.1 ≤ ((attemptLoop fuel st s).2.1.pos : Int)) ∧
    List.Pairwise (fun x y : Int × Int => x.1 ≤ y.1) (attemptLoop fuel st s).2.2 := by
  induction fuel generalizing st s with
  | zero => exact ⟨fun e he => absurd he (List.not_mem_nil e), List.Pairwise.nil⟩
  | succ n ih =>
    simp only [attemptLoop]
    by_cases hneg : st < 0
    · rw [if_pos hneg]
      exact ⟨fun e he => absurd he (List.not_mem_nil e), List.Pairwise.nil⟩
    · rw [if_neg hneg]
      obtain ⟨-, -, -, a4, -, -, -⟩ := doAssert_step st s
      obtain ⟨-, -, -, b4, -, -, -, -⟩ :=
        doRune_step (doAssert st s).1 (doAssert st s).2.1
      obtain ⟨-, -, -, r4, -⟩ :=
        attemptLoop_inv n (doRune (doAssert st s).1 (doAssert st s).2.1).1
          (doRune (doAssert st s).1 (doAssert st s).2.1).2.1
      obtain ⟨ihb, ihp⟩ :=
        ih (doRune (doAssert st s).1 (doAssert st s).2.1).1
          (doRune (doAssert st s).1 (doAssert st s).2.1).2.1
      cases hA2 : (doAssert st s).2.2 with
      | false =>
        rw [if_neg Bool.false_ne_true, List.nil_append, Bool.false_or]
        cases hR2 : (doRune (doAssert st s).1 (doAssert st s).2.1).2.2 with
        | false =>
          rw [if_neg Bool.false_ne_true, if_neg Bool.false_ne_true]
          exact ⟨fun e he => absurd he (List.not_mem_nil e), List.Pairwise.nil⟩
        | true =>
          rw [if_pos rfl, if_pos rfl]
          dsimp only
          constructor
          · intro e he
            rcases List.mem_append.mp he with h | h
            · have h2 := List.eq_of_mem_singleton h
              subst h2
              dsimp only
              exact ⟨by omega, by omega, by omega⟩
            · obtain ⟨h1, h2, h3⟩ := ihb e h
              exact ⟨by omega, h2, h3⟩
          · refine List.pairwise_append.mpr
              ⟨List.pairwise_singleton _ _, ihp, ?_⟩
            intro x hx y hy
            have hx2 := List.eq_of_mem_singleton hx
            subst hx2
            obtain ⟨h1, -, -⟩ := ihb y hy
            dsimp only
            exact h1
      | true =>
        rw [if_pos rfl, Bool.true_or, if_pos rfl, List.singleton_append]
        dsimp only
        constructor
        · intro e he
          rcases List.mem_cons.mp he with h | h
          · subst h
            dsimp only
            exact ⟨by omega, by omega, by omega⟩
          · rcases List.mem_append.mp h with h2 | h2
            · split at h2
              · have h3 := List.eq_of_mem_singleton h2
                subst h3
                dsimp only
                exact ⟨by omega, by omega, by omega⟩
              · exact absurd h2 (List.not_mem_nil e)
            · obtain ⟨h1, h3, h4⟩ := ihb e h2
              exact ⟨by omega, h3, h4⟩
        · refine List.pairwise_cons.mpr ⟨?_, ?_⟩
          · intro y hy
            rcases List.mem_append.mp hy with h2 | h2
            · split at h2
              · have h3 := List.eq_of_mem_singleton h2
                subst h3
                dsimp only
                omega
              · exact absurd h2 (List.not_mem_nil y)
            · obtain ⟨h1, -, -⟩ := ihb y h2
              dsimp only
              omega
          · refine List.pairwise_append.mpr ⟨?_, ihp, ?_⟩
            · split
              · exact List.pairwise_singleton _ _
              · exact List.Pairwise.nil
            · intro x hx y hy
              split at hx
              · have h3 := List.eq_of_mem_singleton hx
                subst h3
                obtain ⟨h1, -, -⟩ := ihb y hy
                dsimp only
                omega
              · exact absurd hx (List.not_mem_nil x)

theorem attemptLoop_assertFree (fuel : Nat) (st : Int) (s : Scanner)
    (h : ∀ d ∈ s.states, d.assertStep = none) :
    ∀ e ∈ (attemptLoop fuel st s).2.2, 1 ≤ e.1 := by
  induction fuel generalizing st s with
  | zero => exact fun e he => absurd he (List.not_mem_nil e)
  | succ n ih =>
    simp only [attemptLoop]
    by_cases hneg : st < 0
    · rw [if_pos hneg]
      exact fun e he => absurd he (List.not_mem_nil e)
    · rw [if_neg hneg]
      have hnoA : (stateAt s st).assertStep = none := by
        rcases stateAt_mem s st with hd | hm
        · rw [hd]; rfl
        · exact h _ hm
      rw [doAssert_noStep st s hnoA]
      dsimp only
      obtain ⟨-, -, b3, -, -, b6, -, -⟩ := doRune_step st s
      rw [if_neg Bool.false_ne_true, List.nil_append, Bool.false_or]
      cases hR2 : (doRune st s).2.2 with
      | false =>
        rw [if_neg Bool.false_ne_true, if_neg Bool.false_ne_true]
        exact fun e he => absurd he (List.not_mem_nil e)
      | true =>
        rw [if_pos rfl, if_pos rfl]
        dsimp only
        intro e he
        rcases List.mem_append.mp he with hm | hm
        · have h2 := List.eq_of_mem_singleton hm
          subst h2
          have h3 := (b6 hR2).1
          dsimp only
          omega
        · refine ih (doRune st s).1 (doRune st s).2.1 ?_ e hm
          rw [b3]
          exact h

end Writer

namespace Writer

theorem foldl_bestStep_nonpos (tr : List (Int × Int)) (p : Int × Int)
    (h : ∀ e ∈ tr, e.2 ≤ 0) : List.foldl bestStep p tr = p := by
  induction tr generalizing p with
  | nil => rfl
  | cons e tr ih =>
    rw [List.foldl_cons]
    have hstep : bestStep p e = p := by
      simp only [bestStep]
      rw [if_neg]
      rintro ⟨h1, -⟩
      exact absurd h1 (not_lt.mpr (h e (List.mem_cons_self e tr)))
    rw [hstep]
    exact ih _ (fun f hf => h f (List.mem_cons_of_mem e hf))

theorem foldl_bestStep_min (tr : List (Int × Int)) :
    ∀ p0 : Int × Int, 0 < p0.2 →
    (∀ e ∈ tr, p0.1 ≤ e.1) →
    List.Pairwise (fun x y : Int × Int => x.1 ≤ y.1) tr →
    0 < (List.foldl bestStep p0 tr).2 ∧
    (List.foldl bestStep p0 tr = p0 ∨ List.foldl bestStep p0 tr ∈ tr) ∧
    (∀ e ∈ tr, 0 < e.2 →
      e.1 < (List.foldl bestStep p0 tr).1 ∨
      (e.1 = (List.foldl bestStep p0 tr).1 ∧ (List.foldl bestStep p0 tr).2 ≤ e.2)) ∧
    (p0.1 < (List.foldl bestStep p0 tr).1 ∨
      (p0.1 = (List.foldl bestStep p0 tr).1 ∧ (List.foldl bestStep p0 tr).2 ≤ p0.2)) := by
  induction tr with
  | nil =>
    intro p0 hpos _ _
    exact ⟨hpos, Or.inl rfl, fun e he => absurd he (List.not_mem_nil e),
      Or.inr ⟨rfl, le_refl _⟩⟩
  | cons e tr ih =>
    intro p0 hpos hge hpw
    rw [List.foldl_cons]
    have hge' := fun f hf => hge f (List.mem_cons_of_mem e hf)
    have he0 := hge e (List.mem_cons_self e tr)
    have hePW := (List.pairwise_cons.mp hpw).1
    have hpw' := (List.pairwise_cons.mp hpw).2
    by_cases hupd : 0 < e.2 ∧ (p0.1 < e.1 ∨ e.2 < p0.2)
    · have hbe : bestStep p0 e = e := by
        simp only [bestStep]
        rw [if_pos hupd]
      rw [hbe]
      obtain ⟨i1, i2, i3, i4⟩ := ih e hupd.1 hePW hpw'
      refine ⟨i1, ?_, ?_, ?_⟩
      · rcases i2 with h | h
        · refine Or.inr ?_
          rw [h]
          exact List.mem_cons_self e tr
        · exact Or.inr (List.mem_cons_of_mem e h)
      · intro f hf hfpos
        rcases List.mem_cons.mp hf with h | h
        · subst h
          exact i4
        · exact i3 f h hfpos
      · rcases i4 with h | ⟨h1, h2⟩
        · rcases hupd.2 with hx | hx
          · exact Or.inl (lt_trans hx h)
          · rcases lt_or_eq_of_le he0 with h3 | h3
            · exact Or.inl (lt_trans h3 h)
            · exact Or.inl (h3 ▸ h)
        · rcases hupd.2 with hx | hx
          · exact Or.inl (h1 ▸ hx)
          · rcases lt_or_eq_of_le he0 with h3 | h3
            · exact Or.inl (h1 ▸ h3)
            · exact Or.inr ⟨h3.trans h1, le_trans h2 (le_of_lt hx)⟩
    · have hbe : bestStep p0 e = p0 := by
        simp only [bestStep]
        rw [if_neg hupd]
      rw [hbe]
      obtain ⟨i1, i2, i3, i4⟩ := ih p0 hpos hge' hpw'
      refine ⟨i1, ?_, ?_, i4⟩
      · rcases i2 with h | h
        · exact Or.inl h
        · exact Or.inr (List.mem_cons_of_mem e h)
      · intro f hf hfpos
        rcases List.mem_cons.mp hf with h | h
        · subst h
          push_neg at hupd
          have h2 := hupd hfpos
          have h3 : f.1 = p0.1 := le_antisymm h2.1 he0
          rcases i4 with h4 | ⟨h4, h5⟩
          · exact Or.inl (h3 ▸ h4)
          · exact Or.inr ⟨h3.trans h4, le_trans h5 h2.2⟩
        · exact i3 f h hfpos

end Writer

namespace Writer

theorem foldl_bestStep_init (tr : List (Int × Int))
    (hpw : List.Pairwise (fun x y : Int × Int => x.1 ≤ y.1) tr)
    (hge : ∀ e ∈ tr, 0 ≤ e.1) (hex : ∃ e ∈ tr, 0 < e.2) :
    List.foldl bestStep (-1, -1) tr ∈ tr ∧
    0 < (List.foldl bestStep (-1, -1) tr).2 ∧
    (∀ e ∈ tr, 0 < e.2 →
      e.1 < (List.foldl bestStep (-1, -1) tr).1 ∨
      (e.1 = (List.foldl bestStep (-1, -1) tr).1 ∧
        (List.foldl bestStep (-1, -1) tr).2 ≤ e.2)) := by
  induction tr with
  | nil =>
    obtain ⟨e, he, -⟩ := hex
    exact absurd he (List.not_mem_nil e)
  | cons e tr ih =>
    rw [List.foldl_cons]
    have hge' := fun f hf => hge f (List.mem_cons_of_mem e hf)
    have hePW := (List.pairwise_cons.mp hpw).1
    have hpw' := (List.pairwise_cons.mp hpw).2
    by_cases hpos : 0 < e.2
    · have hbe : bestStep (-1, -1) e = e := by
        simp only [bestStep]
        rw [if_pos]
        refine ⟨hpos, Or.inl ?_⟩
        have := hge e (List.mem_cons_self e tr)
        omega
      rw [hbe]
      obtain ⟨i1, i2, i3, i4⟩ := foldl_bestStep_min tr e hpos hePW hpw'
      refine ⟨?_, i1, ?_⟩
      · rcases i2 with h | h
        · rw [h]; exact List.mem_cons_self e tr
        · exact List.mem_cons_of_mem e h
      · intro f hf hfpos
        rcases List.mem_cons.mp hf with h | h
        · subst h
          exact i4
        · exact i3 f h hfpos
    · have hbe : bestStep (-1, -1) e = (-1, -1) := by
        simp only [bestStep]
        rw [if_neg]
        rintro ⟨h1, -⟩
        exact hpos h1
      rw [hbe]
      have hex' : ∃ f ∈ tr, 0 < f.2 := by
        obtain ⟨f, hf, hfpos⟩ := hex
        rcases List.mem_cons.mp hf with h | h
        · subst h; exact absurd hfpos hpos
        · exact ⟨f, h, hfpos⟩
      obtain ⟨i1, i2, i3⟩ := ih hpw' hge' hex'
      refine ⟨List.mem_cons_of_mem e i1, i2, ?_⟩
      intro f hf hfpos
      rcases List.mem_cons.mp hf with h | h
      · subst h; exact absurd hfpos hpos
      · exact i3 f h hfpos

end Writer

/-- C1: after each transition, `checkAccept` updates the recorded
    `(match_pos, match_accept)` pair exactly when the new state has a defined
    accept label (`accOf > 0`) and either the cursor is strictly beyond
    `match_pos` or the cursor equals `match_pos` and the new label is strictly
    smaller; consequently, over a whole attempt (`attemptLoop` started with
    `match_pos = match_accept = -1`) the recorded pair is the lexicographically
    least pair under (position descending, accept label ascending) among all
    accepting observations of the attempt, and it is `(-1, -1)` when there is
    none. -/
theorem Writer.scanner_longest_match_rule :
    (∀ (st : Int) (s : Writer.Scanner), s.matchPos ≤ (s.pos : Int) →
      (((0 < Writer.accOf s st ∧ (s.matchPos < (s.pos : Int) ∨
          (s.matchPos = (s.pos : Int) ∧ Writer.accOf s st < s.matchAccept))) →
        ((Writer.checkAccept st s).matchPos, (Writer.checkAccept st s).matchAccept) =
          ((s.pos : Int), Writer.accOf s st)) ∧
       (¬ (0 < Writer.accOf s st ∧ (s.matchPos < (s.pos : Int) ∨
          (s.matchPos = (s.pos : Int) ∧ Writer.accOf s st < s.matchAccept))) →
        ((Writer.checkAccept st s).matchPos, (Writer.checkAccept st s).matchAccept) =
          (s.matchPos, s.matchAccept)))) ∧
    (∀ (fuel : Nat) (st : Int) (s : Writer.Scanner),
      s.matchPos = -1 → s.matchAccept = -1 →
      ((∀ e ∈ (Writer.attemptLoop fuel st s).2.2, e.2 ≤ 0) →
        (Writer.attemptLoop fuel st s).2.1.matchPos = -1 ∧
        (Writer.attemptLoop fuel st s).2.1.matchAccept = -1) ∧
      ((∃ e ∈ (Writer.attemptLoop fuel st s).2.2, 0 < e.2) →
        ((Writer.attemptLoop fuel st s).2.1.matchPos,
          (Writer.attemptLoop fuel st s).2.1.matchAccept) ∈
            (Writer.attemptLoop fuel st s).2.2 ∧
        0 < (Writer.attemptLoop fuel st s).2.1.matchAccept ∧
        ∀ e ∈ (Writer.attemptLoop fuel st s).2.2, 0 < e.2 →
          e.1 < (Writer.attemptLoop fuel st s).2.1.matchPos ∨
          (e.1 = (Writer.attemptLoop fuel st s).2.1.matchPos ∧
            (Writer.attemptLoop fuel st s).2.1.matchAccept ≤ e.2))) := by
  constructor
  · intro st s hle
    have hcm := Writer.checkAccept_match st s
    constructor
    · intro hcond
      rw [hcm]
      simp only [Writer.bestStep]
      rw [if_pos]
      refine ⟨hcond.1, ?_⟩
      rcases hcond.2 with h | h
      · exact Or.inl h
      · exact Or.inr h.2
    · intro hcond
      rw [hcm]
      simp only [Writer.bestStep]
      rw [if_neg]
      rintro ⟨h1, h2⟩
      refine hcond ⟨h1, ?_⟩
      rcases h2 with h | h
      · exact Or.inl h
      · rcases lt_or_eq_of_le hle with h3 | h3
        · exact Or.inl h3
        · exact Or.inr ⟨h3, h⟩
  · intro fuel st s hmp hma
    have hfold := Writer.attemptLoop_fold fuel st s
    rw [hmp, hma] at hfold
    obtain ⟨htb, htp⟩ := Writer.attemptLoop_trace fuel st s
    constructor
    · intro hnp
      have h0 := Writer.foldl_bestStep_nonpos (Writer.attemptLoop fuel st s).2.2
        (-1, -1) hnp
      rw [h0] at hfold
      exact ⟨congrArg Prod.fst hfold, congrArg Prod.snd hfold⟩
    · intro hex
      obtain ⟨i1, i2, i3⟩ := Writer.foldl_bestStep_init (Writer.attemptLoop fuel st s).2.2
        htp (fun e he => (htb e he).2.1) hex
      rw [← hfold] at i1 i2 i3
      exact ⟨i1, i2, i3⟩

/-- Witness for C1 at a concrete scanner: a one-state DFA whose state 0
    accepts rule 3, with the cursor one past a recorded weaker match. -/
theorem Writer.scanner_longest_match_rule_witness :
    ((Writer.checkAccept 0
        { states := [⟨3, 0, none, none⟩], runes := ['a'], asserts := [],
          pos := 1, consumedAssert := false, minCapture := 0, matchPos := 0,
          matchAccept := 7, line := 0, column := 0, input := [] }).matchPos,
      (Writer.checkAccept 0
        { states := [⟨3, 0, none, none⟩], runes := ['a'], asserts := [],
          pos := 1, consumedAssert := false, minCapture := 0, matchPos := 0,
          matchAccept := 7, line := 0, column := 0, input := [] }).matchAccept) =
      ((1 : Int), 3) := by
  have h := (Writer.scanner_longest_match_rule.1 0
    { states := [⟨3, 0, none, none⟩], runes := ['a'], asserts := [],
      pos := 1, consumedAssert := false, minCapture := 0, matchPos := 0,
      matchAccept := 7, line := 0, column := 0, input := [] } (by decide)).1
    (by constructor <;> decide)
  simpa using h

namespace Writer

theorem doRune_runes_le (st : Int) (s : Scanner) :
    s.runes.length ≤ (doRune st s).2.1.runes.length := by
  obtain ⟨e1, -, -, -, -, -, -, -, -⟩ := consumeRune_snd s
  have hlen := loadNext_runes_le s
  simp only [doRune]
  rcases hR : (stateAt s st).runeStep with - | g
  · dsimp only
    exact le_refl _
  · dsimp only
    rcases hc : consumeRune s with ⟨o, s1⟩
    rw [hc] at e1
    dsimp only at e1
    cases o with
    | none =>
      dsimp only
      rw [e1]
      exact hlen
    | some r =>
      dsimp only
      obtain ⟨-, -, -, -, -, -, d7, -, -⟩ := checkAccept_fields (g r) s1
      rw [d7, e1]
      exact hlen

theorem attemptLoop_runes_le (fuel : Nat) (st : Int) (s : Scanner) :
    s.runes.length ≤ (attemptLoop fuel st s).2.1.runes.length := by
  induction fuel generalizing st s with
  | zero => exact le_refl _
  | succ n ih =>
    simp only [attemptLoop]
    by_cases hneg : st < 0
    · rw [if_pos hneg]
    · rw [if_neg hneg]
      obtain ⟨-, -, -, -, a5, -, -⟩ := doAssert_step st s
      have hb := doRune_runes_le (doAssert st s).1 (doAssert st s).2.1
      by_cases hprog :
          ((doAssert st s).2.2 || (doRune (doAssert st s).1 (doAssert st s).2.1).2.2) = true
      · rw [if_pos hprog]
        dsimp only
        exact le_trans (le_trans a5 hb)
          (ih (doRune (doAssert st s).1 (doAssert st s).2.1).1
            (doRune (doAssert st s).1 (doAssert st s).2.1).2.1)
      · rw [if_neg hprog]
        dsimp only
        exact le_trans a5 hb

theorem loadNext_runes_nonempty (s : Scanner) (hpos : s.pos = 0)
    (hin : s.input ≠ []) : (loadNext s).runes ≠ [] := by
  have hl := (loadNextAsserts_fields (loadNextRune s)).2.2.2.2.2.2.2.2.1
  simp only [loadNext, hl]
  simp only [loadNextRune]
  split <;> rename_i h
  · intro hc
    rw [hc] at h
    simp at h
  · cases hi : s.input with
    | nil => exact absurd hi hin
    | cons r rest =>
      dsimp only
      simp

theorem doAssert_runes_or (st : Int) (s : Scanner) :
    (doAssert st s).2.1.runes = s.runes ∨
    (doAssert st s).2.1.runes = (loadNext s).runes := by
  obtain ⟨c1, -, -, -, -, -, -, -⟩ := consumeAsserts_snd s (stateAt s st).assertMask
  simp only [doAssert]
  rcases hA : (stateAt s st).assertStep with - | f
  · dsimp only
    exact Or.inl rfl
  · dsimp only
    by_cases hfire : (consumeAsserts s (stateAt s st).assertMask).1 ≠ 0
    · rw [if_pos hfire]
      obtain ⟨-, -, -, -, -, -, d7, -, -⟩ :=
        checkAccept_fields (f (consumeAsserts s (stateAt s st).assertMask).1)
          (consumeAsserts s (stateAt s st).assertMask).2
      exact Or.inr (d7.trans c1)
    · rw [if_neg hfire]
      exact Or.inr c1

theorem doAssert_runes_of_step (st : Int) (s : Scanner)
    (h : (stateAt s st).assertStep ≠ none) :
    (doAssert st s).2.1.runes = (loadNext s).runes := by
  obtain ⟨c1, -, -, -, -, -, -, -⟩ := consumeAsserts_snd s (stateAt s st).assertMask
  simp only [doAssert]
  rcases hA : (stateAt s st).assertStep with - | f
  · exact absurd hA h
  · dsimp only
    by_cases hfire : (consumeAsserts s (stateAt s st).assertMask).1 ≠ 0
    · rw [if_pos hfire]
      obtain ⟨-, -, -, -, -, -, d7, -, -⟩ :=
        checkAccept_fields (f (consumeAsserts s (stateAt s st).assertMask).1)
          (consumeAsserts s (stateAt s st).assertMask).2
      exact d7.trans c1
    · rw [if_neg hfire]
      exact c1

theorem doRune_runes_of_step (st : Int) (s : Scanner)
    (h : (stateAt s st).runeStep ≠ none) :
    (doRune st s).2.1.runes = (loadNext s).runes := by
  obtain ⟨e1, -, -, -, -, -, -, -, -⟩ := consumeRune_snd s
  simp only [doRune]
  rcases hR : (stateAt s st).runeStep with - | g
  · exact absurd hR h
  · dsimp only
    rcases hc : consumeRune s with ⟨o, s1⟩
    rw [hc] at e1
    dsimp only at e1
    cases o with
    | none =>
      dsimp only
      exact e1
    | some r =>
      dsimp only
      obtain ⟨-, -, -, -, -, -, d7, -, -⟩ := checkAccept_fields (g r) s1
      exact d7.trans e1

theorem attemptLoop_loads (afuel : Nat) (s : Scanner)
    (hf : 1 ≤ afuel) (hpos : s.pos = 0) (hin : s.input ≠ [])
    (h0 : ¬ ((stateAt s 0).runeStep = none ∧ (stateAt s 0).assertStep = none)) :
    (attemptLoop afuel 0 s).2.1.runes ≠ [] := by
  match afuel, hf with
  | n + 1, _ =>
    simp only [attemptLoop]
    rw [if_neg (by omega : ¬ (0 : Int) < 0)]
    have hNE : (loadNext s).runes ≠ [] := loadNext_runes_nonempty s hpos hin
    have key : (doRune (doAssert 0 s).1 (doAssert 0 s).2.1).2.1.runes ≠ [] := by
      by_cases hA : (stateAt s 0).assertStep = none
      · have hstep := doAssert_noStep 0 s hA
        rw [hstep]
        dsimp only
        have hR : (stateAt s 0).runeStep ≠ none := by
          intro hc
          exact h0 ⟨hc, hA⟩
        rw [doRune_runes_of_step 0 s hR]
        exact hNE
      · have hAe := doAssert_runes_of_step 0 s hA
        have hb := doRune_runes_le (doAssert 0 s).1 (doAssert 0 s).2.1
        rw [hAe] at hb
        intro hc
        rw [hc] at hb
        simp only [List.length_nil, Nat.le_zero, List.length_eq_zero] at hb
        exact hNE hb
    by_cases hprog :
        ((doAssert 0 s).2.2 || (doRune (doAssert 0 s).1 (doAssert 0 s).2.1).2.2) = true
    · rw [if_pos hprog]
      dsimp only
      have hmono := attemptLoop_runes_le n
        (doRune (doAssert 0 s).1 (doAssert 0 s).2.1).1
        (doRune (doAssert 0 s).1 (doAssert 0 s).2.1).2.1
      intro hc
      rw [hc] at hmono
      simp only [List.length_nil, Nat.le_zero, List.length_eq_zero] at hmono
      exact key hmono
    · rw [if_neg hprog]
      dsimp only
      exact key

end Writer

namespace Writer

theorem stateAt_congr (s s2 : Scanner) (st : Int) (h : s.states = s2.states) :
    stateAt s st = stateAt s2 st := by
  simp only [stateAt, h]

theorem resetBuffer_fields (i : Nat) (s : Scanner) :
    (resetBuffer i s).pos = 0 ∧
    (resetBuffer i s).consumedAssert = false ∧
    (resetBuffer i s).minCapture = (if i = 0 then 1 else 0) ∧
    (resetBuffer i s).states = s.states ∧
    (resetBuffer i s).matchPos = s.matchPos ∧
    (resetBuffer i s).matchAccept = s.matchAccept := by
  have hf := loadNext_fields
    { s with line := (advanceLineCol (s.runes.take i) s.line s.column).1,
             column := (advanceLineCol (s.runes.take i) s.line s.column).2 }
  exact ⟨rfl, rfl, rfl, hf.2.2.2.2.2.1, hf.2.2.2.1, hf.2.2.2.2.1⟩

theorem resetBuffer_concat (i : Nat) (s : Scanner) (h : i ≤ s.runes.length) :
    s.runes.take i ++ ((resetBuffer i s).runes ++ (resetBuffer i s).input) =
      s.runes ++ s.input := by
  simp only [resetBuffer]
  obtain ⟨ext, hext⟩ := loadNext_runes_ext
    { s with line := (advanceLineCol (s.runes.take i) s.line s.column).1,
             column := (advanceLineCol (s.runes.take i) s.line s.column).2 }
  have hcat := loadNext_concat
    { s with line := (advanceLineCol (s.runes.take i) s.line s.column).1,
             column := (advanceLineCol (s.runes.take i) s.line s.column).2 }
  dsimp only at hext hcat ⊢
  rw [hext] at hcat ⊢
  have htake : s.runes.take i = (s.runes ++ ext).take i := by
    rw [List.take_append_of_le_length h]
  nth_rewrite 1 [htake]
  rw [← List.append_assoc, List.take_append_drop]
  simpa [List.append_assoc] using hcat

theorem foldl_bestStep_mem_or (tr : List (Int × Int)) :
    ∀ p : Int × Int, List.foldl bestStep p tr = p ∨ List.foldl bestStep p tr ∈ tr := by
  induction tr with
  | nil => exact fun p => Or.inl rfl
  | cons e tr ih =>
    intro p
    rw [List.foldl_cons]
    have hbe : bestStep p e = p ∨ bestStep p e = e := by
      simp only [bestStep]
      split
      · exact Or.inr rfl
      · exact Or.inl rfl
    rcases ih (bestStep p e) with h | h
    · rcases hbe with h2 | h2
      · exact Or.inl (h.trans h2)
      · exact Or.inr (by rw [h, h2]; exact List.mem_cons_self e tr)
    · exact Or.inr (List.mem_cons_of_mem e h)

theorem attemptLoop_matchPos_le (fuel : Nat) (st : Int) (s : Scanner)
    (h : s.matchPos ≤ (s.pos : Int)) :
    (attemptLoop fuel st s).2.1.matchPos ≤ ((attemptLoop fuel st s).2.1.pos : Int) := by
  have hfold := attemptLoop_fold fuel st s
  obtain ⟨htb, -⟩ := attemptLoop_trace fuel st s
  obtain ⟨-, -, -, hpos, -⟩ := attemptLoop_inv fuel st s
  have h1 := congrArg Prod.fst hfold
  dsimp only at h1
  rcases foldl_bestStep_mem_or (attemptLoop fuel st s).2.2 (s.matchPos, s.matchAccept)
    with hm | hm
  · rw [hm] at h1
    dsimp only at h1
    rw [h1]
    have : (s.pos : Int) ≤ ((attemptLoop fuel st s).2.1.pos : Int) := by exact_mod_cast hpos
    omega
  · obtain ⟨-, -, h3⟩ := htb _ hm
    rw [h1]
    exact h3

/-- Concatenation of the runes each scan event accounts for. -/
def evConcat (evs : List ScanEv) : List Char :=
  match evs with
  | [] => []
  | e :: t => evText e ++ evConcat t

end Writer

namespace Writer

theorem take_one_getD (l : List Char) (h : l ≠ []) :
    l.take 1 = [l.getD 0 nullRune] := by
  cases l with
  | nil => exact absurd rfl h
  | cons a t => simp

theorem scan_concat (fuel : Nat) : ∀ (afuel : Nat) (s : Scanner),
    s.pos = 0 → 1 ≤ afuel →
    ¬ ((stateAt s 0).runeStep = none ∧ (stateAt s 0).assertStep = none) →
    2 * (s.runes.length + s.input.length) +
      (if s.minCapture = 0 then 1 else 0) < fuel →
    evConcat (scan fuel afuel s) = s.runes ++ s.input := by
  induction fuel with
  | zero =>
    intro afuel s _ _ _ hlt
    omega
  | succ n ih =>
    intro afuel s hpos haf h0 hfuel
    obtain ⟨c1, c2, c3, -, c5⟩ :=
      attemptLoop_inv afuel 0 { s with matchPos := -1, matchAccept := -1 }
    have hmp := attemptLoop_matchPos_le afuel 0
      { s with matchPos := -1, matchAccept := -1 } (by dsimp only; omega)
    have hple := c5 (by dsimp only; omega)
    have hsums : (attemptLoop afuel 0
          { s with matchPos := -1, matchAccept := -1 }).2.1.runes.length +
        (attemptLoop afuel 0
          { s with matchPos := -1, matchAccept := -1 }).2.1.input.length =
        s.runes.length + s.input.length := by
      have := congrArg List.length c1
      simpa using this
    have hstates : (attemptLoop afuel 0
        { s with matchPos := -1, matchAccept := -1 }).2.1.states = s.states := c3
    have hmc : (attemptLoop afuel 0
        { s with matchPos := -1, matchAccept := -1 }).2.1.minCapture = s.minCapture := c2
    simp only [scan]
    by_cases hno : (attemptLoop afuel 0
          { s with matchPos := -1, matchAccept := -1 }).2.1.matchPos <
        ((attemptLoop afuel 0
          { s with matchPos := -1, matchAccept := -1 }).2.1.minCapture : Int)
    · rw [if_pos hno]
      by_cases hre : (attemptLoop afuel 0
          { s with matchPos := -1, matchAccept := -1 }).2.1.runes.length = 0
      · rw [if_pos hre]
        have hrunes : s.runes = [] := by
          have := attemptLoop_runes_le afuel 0
            { s with matchPos := -1, matchAccept := -1 }
          dsimp only at this
          rw [List.length_eq_zero.symm]
          omega
        have hinput : s.input = [] := by
          by_contra hin
          have hload := attemptLoop_loads afuel
            { s with matchPos := -1, matchAccept := -1 } haf hpos hin
            (by
              have : stateAt { s with matchPos := -1, matchAccept := -1 } 0 =
                  stateAt s 0 := stateAt_congr _ _ _ rfl
              rw [this]
              exact h0)
          exact hload (List.length_eq_zero.mp hre)
        rw [hrunes, hinput]
        rfl
      · rw [if_neg hre]
        have hne : (attemptLoop afuel 0
            { s with matchPos := -1, matchAccept := -1 }).2.1.runes ≠ [] := by
          intro hc
          rw [hc] at hre
          exact hre rfl
        have h1le : 1 ≤ (attemptLoop afuel 0
            { s with matchPos := -1, matchAccept := -1 }).2.1.runes.length := by
          omega
        obtain ⟨rb1, -, rb3, rb4, -, -⟩ := resetBuffer_fields 1
          (attemptLoop afuel 0 { s with matchPos := -1, matchAccept := -1 }).2.1
        have hrc := resetBuffer_concat 1
          (attemptLoop afuel 0 { s with matchPos := -1, matchAccept := -1 }).2.1 h1le
        have hrblen : 1 + ((resetBuffer 1 (attemptLoop afuel 0
              { s with matchPos := -1, matchAccept := -1 }).2.1).runes.length +
            (resetBuffer 1 (attemptLoop afuel 0
              { s with matchPos := -1, matchAccept := -1 }).2.1).input.length) =
            s.runes.length + s.input.length := by
          have := congrArg List.length hrc
          simp only [List.length_append, List.length_take] at this
          omega
        have hrec := ih afuel
          (resetBuffer 1 (attemptLoop afuel 0
            { s with matchPos := -1, matchAccept := -1 }).2.1)
          rb1 haf
          (by
            have : stateAt (resetBuffer 1 (attemptLoop afuel 0
                { s with matchPos := -1, matchAccept := -1 }).2.1) 0 =
                stateAt s 0 := stateAt_congr _ _ _ (rb4.trans hstates)
            rw [this]
            exact h0)
          (by
            rw [rb3]
            rw [show ((if (1 : Nat) = 0 then 1 else 0) : Nat) = 0 from rfl]
            rw [if_pos rfl]
            split at hfuel <;> omega)
        show evConcat (ScanEv.skip _ :: scan n afuel _) = _
        simp only [evConcat, evText]
        rw [hrec]
        rw [← take_one_getD _ hne]
        rw [hrc]
        exact c1
    · rw [if_neg hno]
      have hnopanic : ¬ ((attemptLoop afuel 0
            { s with matchPos := -1, matchAccept := -1 }).2.1.runes.length <
          (attemptLoop afuel 0
            { s with matchPos := -1, matchAccept := -1 }).2.1.matchPos.toNat) := by
        omega
      rw [if_neg hnopanic]
      have hile : (attemptLoop afuel 0
          { s with matchPos := -1, matchAccept := -1 }).2.1.matchPos.toNat ≤
          (attemptLoop afuel 0
            { s with matchPos := -1, matchAccept := -1 }).2.1.runes.length := by
        omega
      obtain ⟨rb1, -, rb3, rb4, -, -⟩ := resetBuffer_fields
        (attemptLoop afuel 0
          { s with matchPos := -1, matchAccept := -1 }).2.1.matchPos.toNat
        (attemptLoop afuel 0 { s with matchPos := -1, matchAccept := -1 }).2.1
      have hrc := resetBuffer_concat
        (attemptLoop afuel 0
          { s with matchPos := -1, matchAccept := -1 }).2.1.matchPos.toNat
        (attemptLoop afuel 0 { s with matchPos := -1, matchAccept := -1 }).2.1 hile
      have hrblen : (attemptLoop afuel 0
            { s with matchPos := -1, matchAccept := -1 }).2.1.matchPos.toNat +
          ((resetBuffer (attemptLoop afuel 0
              { s with matchPos := -1, matchAccept := -1 }).2.1.matchPos.toNat
              (attemptLoop afuel 0
                { s with matchPos := -1, matchAccept := -1 }).2.1).runes.length +
            (resetBuffer (attemptLoop afuel 0
              { s with matchPos := -1, matchAccept := -1 }).2.1.matchPos.toNat
              (attemptLoop afuel 0
                { s with matchPos := -1, matchAccept := -1 }).2.1).input.length) =
          s.runes.length + s.input.length := by
        have := congrArg List.length hrc
        simp only [List.length_append, List.length_take] at this
        omega
      have hrec := ih afuel
        (resetBuffer (attemptLoop afuel 0
            { s with matchPos := -1, matchAccept := -1 }).2.1.matchPos.toNat
          (attemptLoop afuel 0 { s with matchPos := -1, matchAccept := -1 }).2.1)
        rb1 haf
        (by
          have : stateAt (resetBuffer (attemptLoop afuel 0
              { s with matchPos := -1, matchAccept := -1 }).2.1.matchPos.toNat
              (attemptLoop afuel 0
                { s with matchPos := -1, matchAccept := -1 }).2.1) 0 =
              stateAt s 0 := stateAt_congr _ _ _ (rb4.trans hstates)
          rw [this]
          exact h0)
        (by
          rw [rb3]
          by_cases hz : (attemptLoop afuel 0
              { s with matchPos := -1, matchAccept := -1 }).2.1.matchPos.toNat = 0
          · rw [hz] at hrblen ⊢
            rw [if_pos rfl]
            rw [show ((if (1 : Nat) = 0 then 1 else 0) : Nat) = 0 from rfl]
            have hmc0 : s.minCapture = 0 := by omega
            rw [hmc0] at hfuel
            rw [show ((if (0 : Nat) = 0 then 1 else 0) : Nat) = 1 from rfl] at hfuel
            omega
          · rw [if_neg hz]
            rw [show ((if (0 : Nat) = 0 then 1 else 0) : Nat) = 1 from rfl]
            split at hfuel <;> omega)
      show evConcat (ScanEv.tok _ _ _ _ :: scan n afuel _) = _
      simp only [evConcat, evText]
      rw [hrec]
      rw [hrc]
      exact c1

end Writer

/-- C2: for every input stream, concatenating in emission order the matched
    text of every frame the scanner emits together with the single runes it
    discards on attempts that record no match (the advance-by-one-rune path)
    reconstructs the input exactly.  The hypothesis states that DFA state 0
    has a rune or assert transition function, as every generated DFA does
    (the emitter always emits a total rune transition). -/
theorem Writer.scan_reconstructs_input (states : List Writer.DState)
    (input : List Char)
    (h0 : ¬ ((Writer.stateAt (Writer.initScanner states input) 0).runeStep = none ∧
      (Writer.stateAt (Writer.initScanner states input) 0).assertStep = none)) :
    Writer.evConcat (Writer.scanInput states input) = input := by
  have h := Writer.scan_concat (2 * input.length + 2) (2 * input.length + 2)
    (Writer.initScanner states input) rfl (by omega) h0
    (by
      show 2 * ((0 : Nat) + input.length) + (if (0 : Nat) = 0 then 1 else 0) <
        2 * input.length + 2
      rw [if_pos rfl]
      omega)
  simpa [Writer.scanInput] using h

/-- Witness for C2: a one-state DFA whose rune step always rejects, on the
    input "a"; the scan discards the rune and the concatenation is "a". -/
theorem Writer.scan_reconstructs_input_witness :
    Writer.evConcat (Writer.scanInput
      [{ accept := -1, assertMask := 0, assertStep := none,
         runeStep := some (fun _ => -1) }] ['a']) = ['a'] :=
  Writer.scan_reconstructs_input _ _ (by
    rintro ⟨h1, -⟩
    simp [Writer.stateAt, Writer.initScanner] at h1)

namespace Writer

theorem attemptLoop_matchPos_assertFree (fuel : Nat) (st : Int) (s : Scanner)
    (h : ∀ d ∈ s.states, d.assertStep = none)
    (hmp : s.matchPos = -1) (hma : s.matchAccept = -1) :
    (attemptLoop fuel st s).2.1.matchPos = -1 ∨
    1 ≤ (attemptLoop fuel st s).2.1.matchPos := by
  have hfold := attemptLoop_fold fuel st s
  rw [hmp, hma] at hfold
  have h1 := congrArg Prod.fst hfold
  dsimp only at h1
  rcases foldl_bestStep_mem_or (attemptLoop fuel st s).2.2 (-1, -1) with hm | hm
  · rw [hm] at h1
    exact Or.inl h1
  · right
    rw [h1]
    exact attemptLoop_assertFree fuel st s h _ hm

theorem take_ne_nil (l : List Char) (i : Nat) (hi : i ≠ 0) (hl : l ≠ []) :
    l.take i ≠ [] := by
  cases l with
  | nil => exact absurd rfl hl
  | cons a t =>
    cases i with
    | zero => exact absurd rfl hi
    | succ n => simp

theorem scan_no_empty_match (fuel : Nat) : ∀ (afuel : Nat) (s : Scanner),
    (∀ d ∈ s.states, d.assertStep = none) →
    ∀ a t l c, ScanEv.tok a t l c ∈ scan fuel afuel s → 0 < a → t ≠ [] := by
  induction fuel with
  | zero =>
    intro afuel s _ a t l c hmem
    exact absurd hmem (List.not_mem_nil _)
  | succ n ih =>
    intro afuel s hall a t l c hmem hpos
    obtain ⟨-, -, c3, -, -⟩ :=
      attemptLoop_inv afuel 0 { s with matchPos := -1, matchAccept := -1 }
    have hdic := attemptLoop_matchPos_assertFree afuel 0
      { s with matchPos := -1, matchAccept := -1 } hall rfl rfl
    simp only [scan] at hmem
    by_cases hno : (attemptLoop afuel 0
          { s with matchPos := -1, matchAccept := -1 }).2.1.matchPos <
        ((attemptLoop afuel 0
          { s with matchPos := -1, matchAccept := -1 }).2.1.minCapture : Int)
    · rw [if_pos hno] at hmem
      by_cases hre : (attemptLoop afuel 0
          { s with matchPos := -1, matchAccept := -1 }).2.1.runes.length = 0
      · rw [if_pos hre] at hmem
        have heq := List.eq_of_mem_singleton hmem
        injection heq with h1 h2 h3 h4
        rw [h1] at hpos
        exact absurd hpos (by decide)
      · rw [if_neg hre] at hmem
        rcases List.mem_cons.mp hmem with h | h
        · exact absurd h (by intro hc; cases hc)
        · obtain ⟨-, -, -, rb4, -, -⟩ := resetBuffer_fields 1
            (attemptLoop afuel 0 { s with matchPos := -1, matchAccept := -1 }).2.1
          refine ih afuel _ ?_ a t l c h hpos
          rw [rb4, c3]
          exact hall
    · rw [if_neg hno] at hmem
      by_cases hpanic : (attemptLoop afuel 0
            { s with matchPos := -1, matchAccept := -1 }).2.1.runes.length <
          (attemptLoop afuel 0
            { s with matchPos := -1, matchAccept := -1 }).2.1.matchPos.toNat
      · rw [if_pos hpanic] at hmem
        exact absurd hmem (List.not_mem_nil _)
      · rw [if_neg hpanic] at hmem
        rcases List.mem_cons.mp hmem with h | h
        · injection h with h1 h2 h3 h4
          rw [h2]
          have hge1 : 1 ≤ (attemptLoop afuel 0
              { s with matchPos := -1, matchAccept := -1 }).2.1.matchPos := by
            rcases hdic with hd | hd
            · rw [hd] at hno
              exact absurd (by omega) hno
            · exact hd
          refine take_ne_nil _ _ (by omega) ?_
          intro hc
          rw [hc] at hpanic
          simp only [List.length_nil] at hpanic
          omega
        · obtain ⟨-, -, -, rb4, -, -⟩ := resetBuffer_fields
            (attemptLoop afuel 0
              { s with matchPos := -1, matchAccept := -1 }).2.1.matchPos.toNat
            (attemptLoop afuel 0 { s with matchPos := -1, matchAccept := -1 }).2.1
          refine ih afuel _ ?_ a t l c h hpos
          rw [rb4, c3]
          exact hall

end Writer

namespace Writer

theorem scan_head_minCapture (fuel afuel : Nat) (s : Scanner)
    (hmc : s.minCapture = 1) :
    ∀ a t l c rest, scan fuel afuel s = ScanEv.tok a t l c :: rest →
      0 < a → t ≠ [] := by
  intro a t l c rest hscan hpos
  obtain ⟨-, c2, -, -, -⟩ :=
    attemptLoop_inv afuel 0 { s with matchPos := -1, matchAccept := -1 }
  cases fuel with
  | zero => simp [scan] at hscan
  | succ n =>
    simp only [scan] at hscan
    by_cases hno : (attemptLoop afuel 0
          { s with matchPos := -1, matchAccept := -1 }).2.1.matchPos <
        ((attemptLoop afuel 0
          { s with matchPos := -1, matchAccept := -1 }).2.1.minCapture : Int)
    · rw [if_pos hno] at hscan
      by_cases hre : (attemptLoop afuel 0
          { s with matchPos := -1, matchAccept := -1 }).2.1.runes.length = 0
      · rw [if_pos hre] at hscan
        injection hscan with hhead htail
        injection hhead with h1 h2 h3 h4
        rw [← h1] at hpos
        exact absurd hpos (by decide)
      · rw [if_neg hre] at hscan
        injection hscan with hhead htail
        cases hhead
    · rw [if_neg hno] at hscan
      by_cases hpanic : (attemptLoop afuel 0
            { s with matchPos := -1, matchAccept := -1 }).2.1.runes.length <
          (attemptLoop afuel 0
            { s with matchPos := -1, matchAccept := -1 }).2.1.matchPos.toNat
      · rw [if_pos hpanic] at hscan
        cases hscan
      · rw [if_neg hpanic] at hscan
        injection hscan with hhead htail
        injection hhead with h1 h2 h3 h4
        rw [← h2]
        have h1le : 1 ≤ (attemptLoop afuel 0
            { s with matchPos := -1, matchAccept := -1 }).2.1.matchPos := by
          have h5 : (attemptLoop afuel 0
              { s with matchPos := -1, matchAccept := -1 }).2.1.minCapture = 1 := by
            rw [c2]
            exact hmc
          rw [h5] at hno
          omega
        refine take_ne_nil _ _ (by omega) ?_
        intro hc
        rw [hc] at hpanic
        simp only [List.length_nil] at hpanic
        omega

/-- The relation of C4 (ii): a zero-width emitted frame is never immediately
    followed by another accepted empty frame. -/
def zwNext (x y : ScanEv) : Prop :=
  ∀ a l c, x = ScanEv.tok a [] l c → 0 < a →
    ∀ a2 t2 l2 c2, y = ScanEv.tok a2 t2 l2 c2 → 0 < a2 → t2 ≠ []

theorem scan_zero_width_chain (fuel : Nat) : ∀ (afuel : Nat) (s : Scanner),
    List.Chain' zwNext (scan fuel afuel s) := by
  induction fuel with
  | zero =>
    intro afuel s
    simp [scan]
  | succ n ih =>
    intro afuel s
    simp only [scan]
    by_cases hno : (attemptLoop afuel 0
          { s with matchPos := -1, matchAccept := -1 }).2.1.matchPos <
        ((attemptLoop afuel 0
          { s with matchPos := -1, matchAccept := -1 }).2.1.minCapture : Int)
    · rw [if_pos hno]
      by_cases hre : (attemptLoop afuel 0
          { s with matchPos := -1, matchAccept := -1 }).2.1.runes.length = 0
      · rw [if_pos hre]
        exact List.chain'_singleton _
      · rw [if_neg hre]
        refine List.chain'_cons'.mpr ⟨?_, ih afuel _⟩
        intro y hy
        intro a l c hx
        cases hx
    · rw [if_neg hno]
      by_cases hpanic : (attemptLoop afuel 0
            { s with matchPos := -1, matchAccept := -1 }).2.1.runes.length <
          (attemptLoop afuel 0
            { s with matchPos := -1, matchAccept := -1 }).2.1.matchPos.toNat
      · rw [if_pos hpanic]
        exact List.chain'_nil
      · rw [if_neg hpanic]
        refine List.chain'_cons'.mpr ⟨?_, ih afuel _⟩
        intro y hy a l c hx hpos a2 t2 l2 c2 hy2 hpos2
        -- the emitted frame is zero width, so the shift is by 0 runes and
        -- the next attempt starts with minCapture = 1
        injection hx with h1 h2 h3 h4
        have hz : (attemptLoop afuel 0
            { s with matchPos := -1, matchAccept := -1 }).2.1.matchPos.toNat = 0 := by
          by_contra hnz
          refine absurd h2 (take_ne_nil _ _ hnz ?_)
          intro hc
          rw [hc] at hpanic
          simp only [List.length_nil] at hpanic
          omega
        rw [hz] at hy
        obtain ⟨-, -, rb3, -, -, -⟩ := resetBuffer_fields 0
          (attemptLoop afuel 0 { s with matchPos := -1, matchAccept := -1 }).2.1
        rcases hsc : scan n afuel (resetBuffer 0
            (attemptLoop afuel 0
              { s with matchPos := -1, matchAccept := -1 }).2.1) with - | ⟨hd, tl⟩
        · rw [hsc] at hy
          simp at hy
        · rw [hsc] at hy
          simp only [List.head?_cons, Option.mem_def, Option.some.injEq] at hy
          subst hy
          refine scan_head_minCapture n afuel _ (by rw [rb3]; rfl)
            a2 t2 l2 c2 tl ?_ hpos2
          rw [← hy2]
          exact hsc

theorem consumedAssert_blocks (s : Scanner) (m : Asserts)
    (h : s.consumedAssert = true) : consumeAsserts s m = (0, loadNext s) := by
  simp only [consumeAsserts]
  rw [if_pos]
  left
  rw [(loadNext_fields s).2.1]
  exact h

theorem consumeAsserts_sets (s : Scanner) (m : Asserts)
    (h : (consumeAsserts s m).1 ≠ 0) :
    (consumeAsserts s m).2.consumedAssert = true := by
  simp only [consumeAsserts] at h ⊢
  split <;> rename_i hcond
  · rw [if_pos hcond] at h
    exact absurd rfl h
  · rfl

theorem consumeRune_clears (s : Scanner)
    (h : (consumeRune s).1.isSome) :
    (consumeRune s).2.consumedAssert = false := by
  simp only [consumeRune] at h ⊢
  split <;> rename_i hcond
  · rw [if_pos hcond] at h
    simp at h
  · rfl

end Writer

/-- C4: (1) with an un-anchored DFA (no assert transitions anywhere) the
    scanner never emits an empty-text match; (2) immediately after a
    zero-width match the next accepted match has non-empty text (the
    `minCapture` mechanism set by a zero-rune buffer shift); (3) an assertion,
    once consumed at a position, is not consumed again (`consumeAsserts`
    yields 0) until a rune is consumed, which clears the flag. -/
theorem Writer.scanner_zero_width_policy :
    (∀ (fuel afuel : Nat) (s : Writer.Scanner),
      (∀ d ∈ s.states, d.assertStep = none) →
      ∀ a t l c, Writer.ScanEv.tok a t l c ∈ Writer.scan fuel afuel s →
        0 < a → t ≠ []) ∧
    (∀ (fuel afuel : Nat) (s : Writer.Scanner),
      List.Chain' Writer.zwNext (Writer.scan fuel afuel s)) ∧
    (∀ (s : Writer.Scanner) (m : Writer.Asserts), s.consumedAssert = true →
      Writer.consumeAsserts s m = (0, Writer.loadNext s)) ∧
    (∀ (s : Writer.Scanner) (m : Writer.Asserts),
      (Writer.consumeAsserts s m).1 ≠ 0 →
      (Writer.consumeAsserts s m).2.consumedAssert = true) ∧
    (∀ s : Writer.Scanner, (Writer.consumeRune s).1.isSome →
      (Writer.consumeRune s).2.consumedAssert = false) :=
  ⟨fun fuel afuel s h => Writer.scan_no_empty_match fuel afuel s h,
   fun fuel => Writer.scan_zero_width_chain fuel,
   Writer.consumedAssert_blocks, Writer.consumeAsserts_sets,
   Writer.consumeRune_clears⟩

/-- Witness for C4: a scanner with the flag already set consumes no assert. -/
theorem Writer.scanner_zero_width_policy_witness :
    Writer.consumeAsserts
      { states := [], runes := ['a'], asserts := [3], pos := 0,
        consumedAssert := true, minCapture := 0, matchPos := -1,
        matchAccept := -1, line := 0, column := 0, input := [] } 5 =
    (0, Writer.loadNext
      { states := [], runes := ['a'], asserts := [3], pos := 0,
        consumedAssert := true, minCapture := 0, matchPos := -1,
        matchAccept := -1, line := 0, column := 0, input := [] }) :=
  Writer.scanner_zero_width_policy.2.2.1 _ 5 rfl

namespace Graph

/-- Go `rune` in the graph builder is `Int` here, since limit splitting uses
    `lo - 1` / `hi + 1` arithmetic. -/
abbrev Rune := Int
abbrev Asserts := Nat

def KNil : Nat := 0
def KRune : Nat := 1
def KClass : Nat := 2
def KAssert : Nat := 3
def KWild : Nat := 4

abbrev limits := List Rune

/-- `limits.inClass`. -/
def inClass (l : limits) (r : Rune) : Bool :=
  match l with
  | lo :: hi :: rest => if lo ≤ r ∧ r ≤ hi then true else inClass rest r
  | _ => false

/-- `insertLimits` (nex/graph/graph.go): insert the pair `(r1, r2)` at
    index `i`. -/
def insertLimits (l : limits) (i : Nat) (r1 r2 : Rune) : limits :=
  l.take i ++ [r1, r2] ++ l.drop i

/-- The index search at the top of `appendLimits`:
    `for i = 0; i < len(l); i += 2 { if r1 <= l[i+1] { break } }`. -/
def findSlot (l : limits) (r1 : Rune) : Nat :=
  match l with
  | _ :: hi :: rest => if r1 ≤ hi then 0 else 2 + findSlot rest r1
  | _ => l.length

/-- `appendLimits` (graph/dfa.go), with fuel for the Go recursion. -/
def appendLimits (fuel : Nat) (l : limits) (r1 r2 : Rune) : limits :=
  match fuel with
  | 0 => l
  | fuel + 1 =>
    let i := findSlot l r1
    if l.length = i ∨ r2 < l.getD i 0 then insertLimits l i r1 r2
    else if r1 < l.getD i 0 then
      let l2 := insertLimits l i (l.getD i 0 - 1) r1
      appendLimits fuel l2 (l2.getD i 0) r2
    else if l.getD i 0 < r1 then
      let l2 := (insertLimits l i (l.getD i 0) (r1 - 1)).set (i + 2) r1
      appendLimits fuel l2 r1 r2
    else if r2 = l.getD (i + 1) 0 then l
    else if r2 < l.getD (i + 1) 0 then
      (insertLimits l i r1 r2).set (i + 2) (r2 + 1)
    else appendLimits fuel l (l.getD (i + 1) 0 + 1) r2

/-- A sorted pairwise-disjoint limits list: each pair is a non-empty range
    and consecutive ranges are strictly separated. -/
def limitsWF (l : limits) : Bool :=
  match l with
  | [] => true
  | lo :: hi :: rest =>
    decide (lo ≤ hi) &&
    (match rest with
     | lo2 :: _ => decide (hi < lo2)
     | [] => true) &&
    limitsWF rest
  | _ => false

/-- An NFA edge; `dst` is the destination node id (the NFA is compacted, so
    node ids index the node array). -/
structure NEdge where
  kind : Nat
  dst : Nat
  r : Rune
  a : Asserts
  lim : limits
deriving DecidableEq, Repr

/-- An NFA node. -/
structure NNode where
  accept : Int
  e : List NEdge
deriving DecidableEq, Repr

instance : Inhabited NNode := ⟨{ accept := -1, e := [] }⟩

/-- The subset-construction key: the `'0'/'1'` string is a bit list. -/
structure StKey where
  bits : List Bool
  accept : Int
deriving DecidableEq, Repr

/-- A DFA node under construction. -/
structure DNode where
  id : Int
  accept : Int
  set : List Nat
deriving DecidableEq, Repr

/-- A DFA edge recorded by the worklist loop. -/
structure DEdge where
  src : Int
  kind : Nat
  r : Rune
  lim : limits
  a : Asserts
  dst : Int
deriving DecidableEq, Repr

abbrev flagSet := List Nat

def nfNotSet : Nat := 0
def nfNotAccepting : Nat := 1
def nfAccepting : Nat := 2

/-- `stToSet`. -/
def stToSet (st : flagSet) : List Nat :=
  (List.range st.length).filter (fun i => st.getD i 0 ≠ 0)

/-- `setToSt`. -/
def setToSt (n : Nat) (set : List Nat) (v : Nat) : flagSet :=
  set.foldl (fun st i => st.set i v) (List.replicate n 0)

/-- The in-place zeroing of all-nil nodes at the top of `makeStKey`. -/
def zeroNil (allNil : List Nat) (st : flagSet) : flagSet :=
  allNil.foldl (fun s i => s.set i 0) st

/-- The `acc` accumulation in `makeStKey`. -/
def keyAccept (nfa : List NNode) (st : flagSet) : Int :=
  (List.range st.length).foldl
    (fun acc i =>
      if st.getD i 0 = nfAccepting ∧ 0 ≤ (nfa.getD i default).accept ∧
          (acc < 0 ∨ (nfa.getD i default).accept < acc) then
        (nfa.getD i default).accept
      else acc)
    (-1)

/-- `makeStKey` applied to an already-zeroed flag set. -/
def mkKey (nfa : List NNode) (st : flagSet) : StKey :=
  { bits := st.map (fun v => decide (v ≠ 0)), accept := keyAccept nfa st }

/-- The BFS of `closure`: `bfs` is the worklist, `visited` the visit marks;
    edges whose destination is already visited are skipped, nil edges and
    edges accepted by `cb` mark their destination `nfAccepting`. -/
def closureLoop (nfa : List NNode) (cb : Option (NEdge → Bool)) :
    Nat → List Nat → List Bool → flagSet → flagSet
  | 0, _, _, st => st
  | _ + 1, [], _, st => st
  | fuel + 1, i :: bfs, visited, st =>
    if visited.getD i false then closureLoop nfa cb fuel bfs visited st
    else
      let visited2 := visited.set i true
      let acc := (nfa.getD i default).e.foldl
        (fun (acc : List Nat × flagSet) e =>
          if visited2.getD e.dst false then acc
          else if e.kind == KNil ||
              (match cb with | none => false | some f => f e) then
            (acc.1 ++ [e.dst], acc.2.set e.dst nfAccepting)
          else acc)
        (bfs, st)
      closureLoop nfa cb fuel acc.1 visited2 acc.2

/-- `closure` (and `nilClosure` when `cb = none`). -/
def closure (nfa : List NNode) (cb : Option (NEdge → Bool)) (fuel : Nat)
    (st : flagSet) : flagSet :=
  closureLoop nfa cb fuel (stToSet st) (List.replicate nfa.length false) st

/-- `constructAllNilList`: non-accepting nodes with only nil out-edges. -/
def constructAllNil (nfa : List NNode) : List Nat :=
  (List.range nfa.length).filter
    (fun i => !((nfa.getD i default).accept > -1) &&
      (nfa.getD i default).e.all (fun e => e.kind == KNil))

/-- The builder state (`dfaBuilder` plus the edges added to popped nodes). -/
structure Builder where
  nfa : List NNode
  allNil : List Nat
  tab : List (StKey × DNode)
  nextId : Nat
  todo : List DNode
  edges : List DEdge
deriving Repr

def lookupTab (tab : List (StKey × DNode)) (k : StKey) : Option DNode :=
  match tab with
  | [] => none
  | (k2, n) :: rest => if k2 = k then some n else lookupTab rest k

/-- `dfaBuilder.get`: nil-close, key (which zeroes all-nil entries in place),
    then register if the key is new. -/
def get (cfuel : Nat) (b : Builder) (st : flagSet) : DNode × Builder :=
  let st1 := closure b.nfa none cfuel st
  let st2 := zeroNil b.allNil st1
  let key := mkKey b.nfa st2
  match lookupTab b.tab key with
  | some n => (n, b)
  | none =>
    let n : DNode := { id := (b.nextId : Int), accept := key.accept, set := stToSet st2 }
    (n, { b with tab := b.tab ++ [(key, n)], nextId := b.nextId + 1,
                 todo := b.todo ++ [n] })

/-- `dfaBuilder.makeSt`. -/
def makeSt (b : Builder) (v : DNode) (cb : NEdge → Bool) : flagSet :=
  v.set.foldl
    (fun st i =>
      (b.nfa.getD i default).e.foldl
        (fun st e =>
          if st.getD e.dst 0 ≠ nfAccepting ∧ cb e then st.set e.dst nfAccepting
          else st)
        st)
    (List.replicate b.nfa.length 0)

/-- `dfaBuilder.getCb`. -/
def getCb (cfuel : Nat) (b : Builder) (v : DNode) (cb : NEdge → Bool) :
    DNode × Builder :=
  get cfuel b (makeSt b v cb)

/-- `dfaBuilder.getAssertWithClosure`. -/
def getAssertWithClosure (cfuel : Nat) (b : Builder) (v : DNode) (a : Asserts) :
    DNode × Builder :=
  let st := setToSt b.nfa.length v.set nfNotAccepting
  let st2 := closureLoop b.nfa (some (fun e => e.kind == KAssert && (e.a &&& a) ≠ 0))
    cfuel (stToSet st) (List.replicate b.nfa.length false) st
  get cfuel b st2

/-- The set-bit masks of `a` (first loop of `getAssertsSubsets`). -/
def bitOptions (fuel : Nat) (a : Asserts) (i : Nat) : List Asserts :=
  match fuel with
  | 0 => []
  | fuel + 1 =>
    if a = 0 then []
    else (if a % 2 = 1 then [1 <<< i] else []) ++ bitOptions fuel (a / 2) (i + 1)

/-- `getAssertsSubsets`. -/
def getAssertsSubsets (a : Asserts) : List Asserts :=
  let options := bitOptions 64 a 0
  if options.length = 0 then []
  else if options.length = 1 then options
  else
    (List.range (2 ^ options.length - 1)).map
      (fun k =>
        (List.range options.length).foldl
          (fun set j => if (k + 1) &&& (1 <<< j) ≠ 0 then set ||| options.getD j 0
            else set)
          0)

/-- The even-indexed pairs of a limits list. -/
def limPairs (l : limits) : List (Rune × Rune) :=
  match l with
  | lo :: hi :: rest => (lo, hi) :: limPairs rest
  | _ => []

/-- The alphabet map insertion (`alphabet[r] = nil`). -/
def alphaInsert (al : List Rune) (r : Rune) : List Rune :=
  if r ∈ al then al else al ++ [r]

/-- Insertion sort used to model `sortedAlphabet` (Go sorts the map's keys). -/
def sortRunes (l : List Rune) : List Rune :=
  match l with
  | [] => []
  | r :: rest => insertRune r (sortRunes rest)
where
  insertRune (r : Rune) : List Rune → List Rune
    | [] => [r]
    | x :: xs => if r ≤ x then r :: x :: xs else x :: insertRune r xs

/-- `dfaBuilder.getDfaEdges`. -/
def getDfaEdges (cfuel lfuel : Nat) (b : Builder) (v : DNode) :
    List Rune × limits × List Asserts :=
  let acc := v.set.foldl
    (fun (acc : List Rune × limits × Asserts) i =>
      (b.nfa.getD i default).e.foldl
        (fun (acc : List Rune × limits × Asserts) e =>
          if e.kind = KClass then
            (limPairs e.lim).foldl
              (fun (acc : List Rune × limits × Asserts) p =>
                if p.1 = p.2 then (alphaInsert acc.1 p.1, acc.2.1, acc.2.2)
                else (acc.1, appendLimits lfuel acc.2.1 p.1 p.2, acc.2.2))
              acc
          else if e.kind = KRune then (alphaInsert acc.1 e.r, acc.2.1, acc.2.2)
          else if e.kind = KAssert then (acc.1, acc.2.1, acc.2.2 ||| e.a)
          else acc)
        acc)
    ([], [], 0)
  let st := setToSt b.nfa.length v.set nfAccepting
  let st2 := closureLoop b.nfa (some (fun e => e.kind == KAssert)) cfuel
    (stToSet st) (List.replicate b.nfa.length false) st
  let a2 := (stToSet st2).foldl
    (fun a i =>
      (b.nfa.getD i default).e.foldl
        (fun a e => if e.kind = KAssert then a ||| e.a else a)
        a)
    acc.2.2
  (sortRunes acc.1, acc.2.1, getAssertsSubsets a2)

/-- One iteration of the `BuildDfa` worklist body for a popped node `v`. -/
def processNode (cfuel lfuel : Nat) (b : Builder) (v : DNode) : Builder :=
  let ed := getDfaEdges cfuel lfuel b v
  let b1 := ed.2.2.foldl
    (fun b a =>
      let r := getAssertWithClosure cfuel b v a
      { r.2 with edges := r.2.edges ++ [⟨v.id, KAssert, 0, [], a, r.1.id⟩] })
    b
  let b2 := ed.1.foldl
    (fun b r =>
      let q := getCb cfuel b v
        (fun e => (e.kind == KRune && e.r == r) || e.kind == KWild ||
          (e.kind == KClass && inClass e.lim r))
      { q.2 with edges := q.2.edges ++ [⟨v.id, KRune, r, [], 0, q.1.id⟩] })
    b1
  let b3 := (limPairs ed.2.1).foldl
    (fun b p =>
      let q := getCb cfuel b v
        (fun e => e.kind == KWild || (e.kind == KClass && inClass e.lim p.1))
      { q.2 with edges := q.2.edges ++ [⟨v.id, KClass, 0, [p.1, p.2], 0, q.1.id⟩] })
    b2
  let q := getCb cfuel b3 v (fun e => e.kind == KWild)
  { q.2 with edges := q.2.edges ++ [⟨v.id, KWild, 0, [], 0, q.1.id⟩] }

/-- The `BuildDfa` worklist (`nextTodo` pops the last element). -/
def buildLoop (cfuel lfuel : Nat) : Nat → Builder → Builder
  | 0, b => b
  | fuel + 1, b =>
    match h : b.todo with
    | [] => b
    | _ :: _ =>
      let v := b.todo.getLast (by rw [h]; exact List.cons_ne_nil _ _)
      buildLoop cfuel lfuel fuel
        (processNode cfuel lfuel { b with todo := b.todo.dropLast } v)

/-- `BuildDfa`: the initial builder holds the dead node under the empty key,
    registers the nil-closure of NFA node 0 as state 0, and runs the
    worklist. -/
def buildDfa (nfa : List NNode) (fuel cfuel lfuel : Nat) : Builder :=
  let b0 : Builder :=
    { nfa := nfa, allNil := constructAllNil nfa,
      tab := [(mkKey nfa (List.replicate nfa.length 0),
               { id := -1, accept := -1, set := [] })],
      nextId := 0, todo := [], edges := [] }
  let r := get cfuel b0 (setToSt nfa.length [0] nfAccepting)
  buildLoop cfuel lfuel fuel r.2

end Graph

namespace Graph

/-- BFS distance from DFA state `0` along the recorded DFA edges; modelled
    from the claim text (breadth-first order of discovery) to compare the
    builder's id assignment against breadth-first layers. -/
def dfaSucc (edges : List DEdge) (u : Int) : List Int :=
  (edges.filter (fun e => e.src == u)).map (fun e => e.dst)

def bfsDistAux (edges : List DEdge) :
    Nat → List Int → List Int → Int → Nat → Option Nat
  | 0, _, _, _, _ => none
  | fuel + 1, frontier, visited, t, d =>
    if t ∈ frontier then some d
    else
      let next := (frontier.foldl (fun acc u => acc ++ dfaSucc edges u) []).filter
        (fun x => !(visited.contains x))
      if next = [] then none
      else bfsDistAux edges fuel next (visited ++ next) t (d + 1)

def bfsDist (edges : List DEdge) (t : Int) : Option Nat :=
  bfsDistAux edges (edges.length + 1) [0] [0] t 0

/-- A 2-node NFA whose only transition is an assert edge from an accepting
    node of rule 5 to an accepting node of rule 7. -/
def nfa2 : List NNode :=
  [{ accept := 5, e := [{ kind := 3, dst := 1, r := 0, a := 1, lim := [] }] },
   { accept := 7, e := [] }]

/-- A 6-node NFA on which the worklist order of `buildDfa` diverges from
    breadth-first order: two branches of different lengths from node 0. -/
def nfa6 : List NNode :=
  [{ accept := -1, e := [{ kind := 1, dst := 1, r := 1, a := 0, lim := [] },
                         { kind := 1, dst := 2, r := 2, a := 0, lim := [] }] },
   { accept := -1, e := [{ kind := 1, dst := 5, r := 3, a := 0, lim := [] }] },
   { accept := -1, e := [{ kind := 1, dst := 3, r := 4, a := 0, lim := [] }] },
   { accept := -1, e := [{ kind := 1, dst := 4, r := 5, a := 0, lim := [] }] },
   { accept := 10, e := [] },
   { accept := 11, e := [] }]

end Graph

/-- C6: inserting the range `[1, 7]` into the sorted disjoint limits list
    `[5..9]` yields `[4..1, 4..4, 5..7, 8..9]`: the `insertLimits` call in the
    `r1 < l[i]` branch of `appendLimits` passes `(l[i]-1, r1)` in swapped
    order, so the result starts with the inverted pair `[4, 1]`, is not a
    sorted pairwise-disjoint list, and the rune `2` of the inserted range
    `[1, 7]` is not covered by the result. -/
theorem Graph.appendLimits_breaks_invariant :
    Graph.appendLimits 20 [5, 9] 1 7 = [4, 1, 4, 4, 5, 7, 8, 9] ∧
    Graph.limitsWF [5, 9] = true ∧
    Graph.limitsWF (Graph.appendLimits 20 [5, 9] 1 7) = false ∧
    Graph.inClass (Graph.appendLimits 20 [5, 9] 1 7) 2 = false ∧
    (1 : Int) ≤ 2 ∧ (2 : Int) ≤ 7 := by
  refine ⟨by decide, by decide, by decide, by decide, by decide, by decide⟩

/-- C3 counterexample: on `nfa2`, the DFA state registered as the target of
    the assert transition has NFA node set `{0, 1}`, whose accepting nodes
    carry rule ids `5` and `7`; the claim requires its accept label to be the
    minimum `5`, but `getAssertWithClosure` seeds the source set with the
    `nfNotAccepting` flag, so `makeStKey` only minimises over the newly added
    node and the state's accept label is `7`. -/
theorem Graph.assert_target_accept_not_min :
    (Graph.buildDfa Graph.nfa2 10 10 10).tab.map
        (fun kv => (kv.2.id, kv.2.set, kv.2.accept)) =
      [(-1, [], -1), (0, [0], 5), (1, [0, 1], 7)] ∧
    (Graph.nfa2.getD 0 default).accept = 5 ∧
    (Graph.nfa2.getD 1 default).accept = 7 ∧
    ((7 : Int) ≠ 5) := by
  refine ⟨by decide, by decide, by decide, by decide⟩

/-- C8 counterexample: on `nfa6` the builder records the DFA edges
    `0→1, 0→2, 2→3, 3→4, 1→5` (plus dead-state edges); in a breadth-first
    traversal from state 0, state 5 is discovered at distance 2 and state 4 at
    distance 3, yet state 5 received the larger id: the worklist pops the most
    recently registered state, so discovery is depth-first, not breadth-first. -/
theorem Graph.buildDfa_not_bfs_order :
    Graph.bfsDist (Graph.buildDfa Graph.nfa6 20 20 20).edges 5 = some 2 ∧
    Graph.bfsDist (Graph.buildDfa Graph.nfa6 20 20 20).edges 4 = some 3 ∧
    (2 : Nat) < 3 ∧ ¬ ((5 : Int) < 4) := by
  refine ⟨by decide, by decide, by decide, by decide⟩

namespace Graph

/-- The accept label of NFA node `i`. -/
def nacc (nfa : List NNode) (i : Nat) : Int := (nfa.getD i default).accept

/-- Node `i` contributes to the accept minimum: flagged `nfAccepting` and its
    rule id is defined. -/
def elig (nfa : List NNode) (st : flagSet) (i : Nat) : Prop :=
  st.getD i 0 = nfAccepting ∧ 0 ≤ nacc nfa i

instance (nfa : List NNode) (st : flagSet) (i : Nat) :
    Decidable (elig nfa st i) := by unfold elig; infer_instance

/-- One step of the `acc` fold in `makeStKey`. -/
def kstep (nfa : List NNode) (st : flagSet) (acc : Int) (i : Nat) : Int :=
  if st.getD i 0 = nfAccepting ∧ 0 ≤ nacc nfa i ∧ (acc < 0 ∨ nacc nfa i < acc) then
    nacc nfa i
  else acc

theorem keyAccept_eq_foldl (nfa : List NNode) (st : flagSet) :
    keyAccept nfa st = (List.range st.length).foldl (kstep nfa st) (-1) := rfl

theorem kstep_fold (nfa : List NNode) (st : flagSet) (l : List Nat) :
    ∀ acc : Int,
      (acc < 0 →
        ((l.foldl (kstep nfa st) acc = acc ∧ ∀ i ∈ l, ¬ elig nfa st i) ∨
         (0 ≤ l.foldl (kstep nfa st) acc ∧
          (∃ i ∈ l, elig nfa st i ∧ nacc nfa i = l.foldl (kstep nfa st) acc) ∧
          ∀ i ∈ l, elig nfa st i → l.foldl (kstep nfa st) acc ≤ nacc nfa i))) ∧
      (0 ≤ acc →
        (0 ≤ l.foldl (kstep nfa st) acc ∧ l.foldl (kstep nfa st) acc ≤ acc ∧
         (l.foldl (kstep nfa st) acc = acc ∨
          ∃ i ∈ l, elig nfa st i ∧ nacc nfa i = l.foldl (kstep nfa st) acc) ∧
         ∀ i ∈ l, elig nfa st i → l.foldl (kstep nfa st) acc ≤ nacc nfa i)) := by
  induction l with
  | nil =>
    intro acc
    refine ⟨fun hneg => Or.inl ⟨rfl, by simp⟩, fun hpos => ⟨hpos, le_refl _, Or.inl rfl, by simp⟩⟩
  | cons x l ih =>
    intro acc
    rw [List.foldl_cons]
    by_cases hc : st.getD x 0 = nfAccepting ∧ 0 ≤ nacc nfa x ∧ (acc < 0 ∨ nacc nfa x < acc)
    · have hstep : kstep nfa st acc x = nacc nfa x := by rw [kstep, if_pos hc]
      rw [hstep]
      have helig : elig nfa st x := ⟨hc.1, hc.2.1⟩
      obtain ⟨ih1, ih2⟩ := ih (nacc nfa x)
      have h2 := ih2 hc.2.1
      constructor
      · intro _
        right
        refine ⟨h2.1, ?_, ?_⟩
        · rcases h2.2.2.1 with heq | ⟨i, hi, he, hn⟩
          · exact ⟨x, List.mem_cons_self x l, helig, heq.symm⟩
          · exact ⟨i, List.mem_cons_of_mem _ hi, he, hn⟩
        · intro i hi he
          rcases List.mem_cons.mp hi with rfl | hi
          · exact h2.2.1
          · exact h2.2.2.2 i hi he
      · intro hpos
        rcases hc.2.2 with hneg | hlt
        · omega
        · refine ⟨h2.1, le_trans h2.2.1 (le_of_lt hlt), ?_, ?_⟩
          · right
            rcases h2.2.2.1 with heq | ⟨i, hi, he, hn⟩
            · exact ⟨x, List.mem_cons_self x l, helig, heq.symm⟩
            · exact ⟨i, List.mem_cons_of_mem _ hi, he, hn⟩
          · intro i hi he
            rcases List.mem_cons.mp hi with rfl | hi
            · exact h2.2.1
            · exact h2.2.2.2 i hi he
    · have hstep : kstep nfa st acc x = acc := by rw [kstep, if_neg hc]
      rw [hstep]
      obtain ⟨ih1, ih2⟩ := ih acc
      constructor
      · intro hneg
        have hnelig : ¬ elig nfa st x := by
          intro he
          exact hc ⟨he.1, he.2, Or.inl hneg⟩
        rcases ih1 hneg with ⟨heq, hall⟩ | ⟨hge, hex, hall⟩
        · left
          refine ⟨heq, ?_⟩
          intro i hi
          rcases List.mem_cons.mp hi with rfl | hi
          · exact hnelig
          · exact hall i hi
        · right
          refine ⟨hge, ?_, ?_⟩
          · obtain ⟨i, hi, he, hn⟩ := hex
            exact ⟨i, List.mem_cons_of_mem _ hi, he, hn⟩
          · intro i hi he
            rcases List.mem_cons.mp hi with rfl | hi
            · exact absurd he hnelig
            · exact hall i hi he
      · intro hpos
        obtain ⟨hge, hle, hex, hall⟩ := ih2 hpos
        refine ⟨hge, hle, ?_, ?_⟩
        · rcases hex with heq | ⟨i, hi, he, hn⟩
          · exact Or.inl heq
          · exact Or.inr ⟨i, List.mem_cons_of_mem _ hi, he, hn⟩
        · intro i hi he
          rcases List.mem_cons.mp hi with rfl | hi
          · have : ¬ (nacc nfa i < acc) := fun hlt => hc ⟨he.1, he.2, Or.inr hlt⟩
            omega
          · exact hall i hi he

end Graph

/-- C3 (amended): the accept label computed by `makeStKey` is the minimum
    rule id over the NFA nodes flagged `nfAccepting` in the flag set (and is
    `-1` when no flagged node has a defined rule id). Registration via `get`
    flags the whole closed set accepting, so there the label is the minimum
    over the accepting nodes of `S`; but `getAssertWithClosure` seeds the
    pre-transition nodes with `nfNotAccepting`, excluding them from the
    minimum, so for assert-transition targets the label is the minimum over
    the newly reached nodes only. -/
theorem Graph.makeStKey_accept_is_min (nfa : List Graph.NNode) (st : Graph.flagSet) :
    ((Graph.mkKey nfa st).accept = -1 ∧
      ∀ i, i < st.length → st.getD i 0 = Graph.nfAccepting →
        (nfa.getD i default).accept < 0) ∨
    (0 ≤ (Graph.mkKey nfa st).accept ∧
      (∃ i, i < st.length ∧ st.getD i 0 = Graph.nfAccepting ∧
        (nfa.getD i default).accept = (Graph.mkKey nfa st).accept) ∧
      ∀ j, j < st.length → st.getD j 0 = Graph.nfAccepting →
        0 ≤ (nfa.getD j default).accept →
        (Graph.mkKey nfa st).accept ≤ (nfa.getD j default).accept) := by
  have hk : (Graph.mkKey nfa st).accept =
      (List.range st.length).foldl (Graph.kstep nfa st) (-1) :=
    Graph.keyAccept_eq_foldl nfa st
  have h := (Graph.kstep_fold nfa st (List.range st.length) (-1)).1 (by omega)
  rw [← hk] at h
  rcases h with ⟨heq, hall⟩ | ⟨hge, ⟨i, hi, he, hn⟩, hall⟩
  · left
    refine ⟨heq, ?_⟩
    intro i hilen hflag
    by_contra hge
    exact hall i (List.mem_range.mpr hilen) ⟨hflag, by simp only [Graph.nacc]; omega⟩
  · right
    refine ⟨hge, ⟨i, List.mem_range.mp hi, he.1, hn⟩, ?_⟩
    intro j hjlen hflag hacc
    exact hall j (List.mem_range.mpr hjlen) ⟨hflag, hacc⟩

namespace Graph

/-- The ids of the registered (non-dead) DFA states, in table insertion
    order. -/
def liveIds (b : Builder) : List Int :=
  (b.tab.filter (fun kv => kv.2.id ≠ -1)).map (fun kv => kv.2.id)

/-- Invariant: the live ids are exactly `0, 1, ..., nextId - 1` in
    registration order. -/
def idsOk (b : Builder) : Prop :=
  liveIds b = (List.range b.nextId).map (fun n => (n : Int))

theorem idsOk_register (b : Builder) (k : StKey) (n : DNode) (td : List DNode)
    (hid : n.id = (b.nextId : Int)) (h : idsOk b) :
    idsOk { b with tab := b.tab ++ [(k, n)], nextId := b.nextId + 1, todo := td } := by
  rw [idsOk, liveIds] at h ⊢
  dsimp only
  rw [List.filter_append, List.map_append, h, List.filter_cons]
  have hne : n.id ≠ -1 := by rw [hid]; omega
  rw [if_pos (decide_eq_true hne)]
  simp [List.range_succ, hid]

theorem idsOk_get (cfuel : Nat) (b : Builder) (st : flagSet) (h : idsOk b) :
    idsOk (get cfuel b st).2 := by
  rw [get]
  split
  · exact h
  · exact idsOk_register b _ _ _ rfl h

theorem idsOk_edges (b : Builder) (es : List DEdge) (h : idsOk b) :
    idsOk { b with edges := es } := h

theorem idsOk_foldl {α : Type} (f : Builder → α → Builder)
    (hf : ∀ b x, idsOk b → idsOk (f b x)) :
    ∀ (l : List α) (b : Builder), idsOk b → idsOk (l.foldl f b) := by
  intro l
  induction l with
  | nil => intro b h; exact h
  | cons x l ih => intro b h; rw [List.foldl_cons]; exact ih _ (hf b x h)

theorem idsOk_processNode (cfuel lfuel : Nat) (b : Builder) (v : DNode)
    (h : idsOk b) : idsOk (processNode cfuel lfuel b v) := by
  rw [processNode]
  refine idsOk_edges _ _ ?_
  refine idsOk_get _ _ _ ?_
  refine idsOk_foldl _ ?_ _ _ ?_
  · intro b p hb
    exact idsOk_edges _ _ (idsOk_get _ _ _ hb)
  refine idsOk_foldl _ ?_ _ _ ?_
  · intro b r hb
    exact idsOk_edges _ _ (idsOk_get _ _ _ hb)
  refine idsOk_foldl _ ?_ _ _ h
  · intro b a hb
    exact idsOk_edges _ _ (idsOk_get _ _ _ hb)

theorem idsOk_buildLoop (cfuel lfuel : Nat) :
    ∀ (fuel : Nat) (b : Builder), idsOk b → idsOk (buildLoop cfuel lfuel fuel b) := by
  intro fuel
  induction fuel with
  | zero => intro b h; exact h
  | succ fuel ih =>
    intro b h
    rw [buildLoop]
    split
    · exact h
    · exact ih _ (idsOk_processNode _ _ _ _ h)

end Graph

/-- C8 (amended): `BuildDfa` assigns DFA state ids deterministically, in
    first-registration order: at every point of the construction the ids of
    the registered states are exactly `0, 1, 2, ...` in table insertion
    order, state 0 being the nil-closure of NFA node 0.  The worklist
    (`nextTodo`) pops the most recently appended state, so states are
    explored depth-first; ids do not follow breadth-first discovery order. -/
theorem Graph.buildDfa_ids_registration_order (nfa : List Graph.NNode)
    (fuel cfuel lfuel : Nat) :
    Graph.liveIds (Graph.buildDfa nfa fuel cfuel lfuel) =
      (List.range (Graph.buildDfa nfa fuel cfuel lfuel).nextId).map
        (fun n => (n : Int)) := by
  refine Graph.idsOk_buildLoop cfuel lfuel fuel _ ?_
  refine Graph.idsOk_get cfuel _ _ ?_
  rw [Graph.idsOk, Graph.liveIds]
  simp [List.filter_cons]

namespace Graph

/-- The worklist of `compactGraph`: `nodes` is the discovery list, `pos` the
    read cursor, `visited` the map of destinations already appended.  The
    start node is never marked visited. -/
def compactLoop (g : List NNode) : Nat → List Nat → Nat → List Bool → List Nat
  | 0, nodes, _, _ => nodes
  | fuel + 1, nodes, pos, visited =>
    if pos < nodes.length then
      let acc := (g.getD (nodes.getD pos 0) default).e.foldl
        (fun (acc : List Nat × List Bool) e =>
          if acc.2.getD e.dst false then acc
          else (acc.1 ++ [e.dst], acc.2.set e.dst true))
        (nodes, visited)
      compactLoop g fuel acc.1 (pos + 1) acc.2
    else nodes

/-- `compactGraph` restricted to the discovery order (the returned node list,
    as original node indices). -/
def compactOrder (g : List NNode) (start : Nat) (fuel : Nat) : List Nat :=
  compactLoop g fuel [start] 0 (List.replicate g.length false)

/-- The final renumbering loop `for i, v := range nodes { v.Id = i }` writes
    ids in order, so a node appearing several times keeps the id of its last
    occurrence. -/
def lastIndexOf (order : List Nat) (x : Nat) : Option Nat :=
  match order with
  | [] => none
  | a :: t =>
    match lastIndexOf t x with
    | some k => some (k + 1)
    | none => if a = x then some 0 else none

/-- One edge step in the NFA graph. -/
def gstep (g : List NNode) (u v : Nat) : Prop :=
  ∃ e ∈ (g.getD u default).e, e.dst = v

/-- A single node carrying a nil self-loop: an edge back to the start node. -/
def g1 : List NNode :=
  [{ accept := -1, e := [{ kind := 0, dst := 0, r := 0, a := 0, lim := [] }] }]

end Graph

/-- C10 counterexample: on a graph whose start node has an edge back to
    itself, `compactGraph` appends the start node a second time (the start
    node is never marked visited), so the returned list is not duplicate-free
    and the renumbering assigns the start node the id of its last occurrence,
    `1`, not its index `0`. -/
theorem Graph.compactGraph_duplicates_start :
    Graph.compactOrder Graph.g1 0 4 = [0, 0] ∧
    ¬ (Graph.compactOrder Graph.g1 0 4).Nodup ∧
    Graph.lastIndexOf (Graph.compactOrder Graph.g1 0 4) 0 = some 1 ∧
    (1 : Nat) ≠ 0 := by
  refine ⟨by decide, by decide, by decide, by decide⟩

namespace Graph

/-- The edge-processing step of the `compactGraph` worklist body. -/
def cstep (acc : List Nat × List Bool) (e : NEdge) : List Nat × List Bool :=
  if acc.2.getD e.dst false then acc
  else (acc.1 ++ [e.dst], acc.2.set e.dst true)

theorem compactLoop_succ (g : List NNode) (fuel : Nat) (nodes : List Nat)
    (pos : Nat) (visited : List Bool) :
    compactLoop g (fuel + 1) nodes pos visited =
      if pos < nodes.length then
        compactLoop g fuel
          ((g.getD (nodes.getD pos 0) default).e.foldl cstep (nodes, visited)).1
          (pos + 1)
          ((g.getD (nodes.getD pos 0) default).e.foldl cstep (nodes, visited)).2
      else nodes := rfl

theorem getD_set_self (l : List Bool) (i : Nat) (v : Bool) (h : i < l.length) :
    (l.set i v).getD i false = v := by
  induction l generalizing i with
  | nil => simp at h
  | cons a t ih =>
    cases i with
    | zero => rfl
    | succ i =>
      simp only [List.set, List.getD_cons_succ]
      exact ih i (by simpa using h)

theorem getD_set_ne (l : List Bool) (i j : Nat) (v : Bool) (h : i ≠ j) :
    (l.set i v).getD j false = l.getD j false := by
  induction l generalizing i j with
  | nil => rfl
  | cons a t ih =>
    cases i with
    | zero =>
      cases j with
      | zero => exact absurd rfl h
      | succ j => simp [List.getD_cons_succ]
    | succ i =>
      cases j with
      | zero => simp [List.getD_cons_zero]
      | succ j =>
        simp only [List.set, List.getD_cons_succ]
        exact ih i j (by omega)

theorem count_set_true (l : List Bool) (i : Nat) (h : i < l.length)
    (hf : l.getD i false = false) :
    (l.set i true).count false + 1 = l.count false := by
  induction l generalizing i with
  | nil => simp at h
  | cons a t ih =>
    cases i with
    | zero =>
      have ha : a = false := hf
      subst ha
      simp [List.count_cons]
    | succ i =>
      have h2 : i < t.length := by simpa using h
      have hf2 : t.getD i false = false := hf
      have := ih i h2 hf2
      simp only [List.set, List.count_cons]
      omega

theorem mem_getD (l : List Nat) (j : Nat) (h : j < l.length) :
    l.getD j 0 ∈ l := by
  rw [List.getD_eq_getElem l 0 h]
  exact List.getElem_mem h

theorem lastIndexOf_eq_none (l : List Nat) (x : Nat) (h : x ∉ l) :
    lastIndexOf l x = none := by
  induction l with
  | nil => rfl
  | cons a t ih =>
    rw [lastIndexOf, ih (fun hx => h (List.mem_cons_of_mem a hx))]
    rw [if_neg (fun ha : a = x => h (ha ▸ List.mem_cons_self a t))]

theorem lastIndexOf_nodup (l : List Nat) (h : l.Nodup) :
    ∀ i, i < l.length → lastIndexOf l (l.getD i 0) = some i := by
  induction l with
  | nil => intro i hi; simp at hi
  | cons a t ih =>
    intro i hi
    cases i with
    | zero =>
      rw [List.getD_cons_zero, lastIndexOf,
        lastIndexOf_eq_none t a (List.Nodup.not_mem h), if_pos rfl]
    | succ i =>
      rw [List.getD_cons_succ, lastIndexOf,
        ih (List.Nodup.of_cons h) i (by simpa using hi)]

end Graph

namespace Graph

theorem cstep_fold (g : List NNode) (start : Nat)
    (hwf : ∀ u, u < g.length → ∀ e ∈ (g.getD u default).e, e.dst < g.length)
    (hstart : ∀ u, u < g.length → ∀ e ∈ (g.getD u default).e, e.dst ≠ start)
    (u : Nat) (hu : u < g.length)
    (hru : Relation.ReflTransGen (gstep g) start u) :
    ∀ (es : List NEdge), (∀ e ∈ es, e ∈ (g.getD u default).e) →
    ∀ (tl : List Nat) (visited : List Bool),
      visited.length = g.length →
      (∀ x, visited.getD x false = true ↔ x ∈ tl) →
      (start :: tl).Nodup →
      (∀ x ∈ start :: tl, Relation.ReflTransGen (gstep g) start x ∧ x < g.length) →
      ∃ tl2 : List Nat, ∃ vis2 : List Bool,
        es.foldl cstep (start :: tl, visited) = (start :: (tl ++ tl2), vis2) ∧
        vis2.length = g.length ∧
        (∀ x, vis2.getD x false = true ↔ x ∈ tl ++ tl2) ∧
        (start :: (tl ++ tl2)).Nodup ∧
        (∀ x ∈ start :: (tl ++ tl2),
          Relation.ReflTransGen (gstep g) start x ∧ x < g.length) ∧
        (∀ e ∈ es, e.dst ∈ start :: (tl ++ tl2)) ∧
        ((tl ++ tl2).length + vis2.count false = tl.length + visited.count false) := by
  intro es
  induction es with
  | nil =>
    intro hes tl visited hlen hvis hnd hreach
    refine ⟨[], visited, by simp, hlen, by simpa using hvis, by simpa using hnd,
      by simpa using hreach, by simp, by simp⟩
  | cons e es ih =>
    intro hes tl visited hlen hvis hnd hreach
    have hein : e ∈ (g.getD u default).e := hes e (List.mem_cons_self e es)
    have hes2 : ∀ e2 ∈ es, e2 ∈ (g.getD u default).e :=
      fun e2 he2 => hes e2 (List.mem_cons_of_mem e he2)
    rw [List.foldl_cons]
    by_cases hv : visited.getD e.dst false = true
    · have hstep : cstep (start :: tl, visited) e = (start :: tl, visited) := by
        rw [cstep, if_pos hv]
      rw [hstep]
      obtain ⟨tl2, vis2, heq, h1, h2, h3, h4, h5, h6⟩ :=
        ih hes2 tl visited hlen hvis hnd hreach
      refine ⟨tl2, vis2, heq, h1, h2, h3, h4, ?_, h6⟩
      intro e2 he2
      rcases List.mem_cons.mp he2 with rfl | he2
      · exact List.mem_cons_of_mem _ (List.mem_append_left tl2 ((hvis e2.dst).mp hv))
      · exact h5 e2 he2
    · have hvf : visited.getD e.dst false = false := by
        cases hb : visited.getD e.dst false
        · rfl
        · exact absurd hb hv
      have hstep : cstep (start :: tl, visited) e =
          (start :: (tl ++ [e.dst]), visited.set e.dst true) := by
        rw [cstep, if_neg (by rw [hvf]; exact Bool.false_ne_true)]
        rfl
      rw [hstep]
      have hdlt : e.dst < g.length := hwf u hu e hein
      have hdns : e.dst ≠ start := hstart u hu e hein
      have hdnt : e.dst ∉ tl := fun hx => by
        rw [← hvis e.dst] at hx
        rw [hvf] at hx
        exact Bool.false_ne_true hx
      have hlen2 : (visited.set e.dst true).length = g.length := by
        rw [List.length_set]; exact hlen
      have hvis2 : ∀ x, (visited.set e.dst true).getD x false = true ↔
          x ∈ tl ++ [e.dst] := by
        intro x
        by_cases hx : e.dst = x
        · subst hx
          rw [getD_set_self visited e.dst true (by rw [hlen]; exact hdlt)]
          simp
        · rw [getD_set_ne visited e.dst x true hx]
          rw [hvis x]
          simp only [List.mem_append, List.mem_singleton]
          constructor
          · exact fun h => Or.inl h
          · intro h
            rcases h with h | h
            · exact h
            · exact absurd h.symm hx
      have hnd2 : (start :: (tl ++ [e.dst])).Nodup := by
        have hns : e.dst ∉ start :: tl := by
          intro hx
          rcases List.mem_cons.mp hx with hx | hx
          · exact hdns hx
          · exact hdnt hx
        rw [show start :: (tl ++ [e.dst]) = (start :: tl) ++ [e.dst] from rfl]
        refine List.Nodup.append hnd (List.nodup_singleton _) ?_
        intro a ha hb
        rw [List.mem_singleton] at hb
        subst hb
        exact hns ha
      have hreach2 : ∀ x ∈ start :: (tl ++ [e.dst]),
          Relation.ReflTransGen (gstep g) start x ∧ x < g.length := by
        intro x hx
        rcases List.mem_cons.mp hx with rfl | hx
        · exact hreach x (List.mem_cons_self _ _)
        · rcases List.mem_append.mp hx with hx | hx
          · exact hreach x (List.mem_cons_of_mem _ hx)
          · rw [List.mem_singleton] at hx
            subst hx
            exact ⟨Relation.ReflTransGen.tail hru ⟨e, hein, rfl⟩, hdlt⟩
      obtain ⟨tl2, vis2, heq, h1, h2, h3, h4, h5, h6⟩ :=
        ih hes2 (tl ++ [e.dst]) (visited.set e.dst true) hlen2 hvis2 hnd2 hreach2
      have hcnt := count_set_true visited e.dst (by rw [hlen]; exact hdlt) hvf
      refine ⟨e.dst :: tl2, vis2, ?_, h1, ?_, ?_, ?_, ?_, ?_⟩
      · rw [heq]
        simp [List.append_assoc]
      · intro x
        rw [h2 x]
        simp [List.append_assoc]
      · have := h3
        simpa [List.append_assoc] using this
      · have := h4
        simpa [List.append_assoc] using this
      · intro e2 he2
        rcases List.mem_cons.mp he2 with rfl | he2
        · simp
        · have := h5 e2 he2
          simpa [List.append_assoc] using this
      · have h6c := h6
        have hL : (tl ++ [e.dst] ++ tl2).length = tl.length + 1 + tl2.length := by
          simp
          omega
        have hG : (tl ++ e.dst :: tl2).length = tl.length + 1 + tl2.length := by
          simp
          omega
        rw [hG]
        rw [hL, show (tl ++ [e.dst]).length = tl.length + 1 from by simp] at h6c
        omega

end Graph

namespace Graph

theorem compactLoop_spec (g : List NNode) (start : Nat)
    (hwf : ∀ u, u < g.length → ∀ e ∈ (g.getD u default).e, e.dst < g.length)
    (hstart : ∀ u, u < g.length → ∀ e ∈ (g.getD u default).e, e.dst ≠ start) :
    ∀ (fuel : Nat) (tl : List Nat) (pos : Nat) (visited : List Bool),
      pos ≤ (start :: tl).length →
      visited.length = g.length →
      (∀ x, visited.getD x false = true ↔ x ∈ tl) →
      (start :: tl).Nodup →
      (∀ x ∈ start :: tl, Relation.ReflTransGen (gstep g) start x ∧ x < g.length) →
      (∀ j, j < pos → ∀ e ∈ (g.getD ((start :: tl).getD j 0) default).e,
        e.dst ∈ start :: tl) →
      ((start :: tl).length - pos) + visited.count false ≤ fuel →
      ∃ tl2, compactLoop g fuel (start :: tl) pos visited = start :: (tl ++ tl2) ∧
        (start :: (tl ++ tl2)).Nodup ∧
        (∀ x ∈ start :: (tl ++ tl2), Relation.ReflTransGen (gstep g) start x) ∧
        (∀ j, j < (start :: (tl ++ tl2)).length →
          ∀ e ∈ (g.getD ((start :: (tl ++ tl2)).getD j 0) default).e,
            e.dst ∈ start :: (tl ++ tl2)) := by
  intro fuel
  induction fuel with
  | zero =>
    intro tl pos visited hpos hlen hvis hnd hreach hclosed hfuel
    have hpe : pos = (start :: tl).length := by omega
    refine ⟨[], ?_, ?_, ?_, ?_⟩
    · rw [compactLoop]; simp
    · simpa using hnd
    · intro x hx
      exact (hreach x (by simpa using hx)).1
    · intro j hj e he
      simp only [List.append_nil] at hj he ⊢
      exact hclosed j (by omega) e he
  | succ fuel ih =>
    intro tl pos visited hpos hlen hvis hnd hreach hclosed hfuel
    rw [compactLoop_succ]
    by_cases hlt : pos < (start :: tl).length
    · rw [if_pos hlt]
      have hu : (start :: tl).getD pos 0 ∈ start :: tl := mem_getD _ pos hlt
      obtain ⟨hru, hulen⟩ := hreach _ hu
      obtain ⟨tl2a, vis2, heq, h1, h2, h3, h4, h5, h6⟩ :=
        cstep_fold g start hwf hstart ((start :: tl).getD pos 0) hulen hru
          (g.getD ((start :: tl).getD pos 0) default).e (fun e he => he)
          tl visited hlen hvis hnd hreach
      rw [heq]
      have hpos2 : pos + 1 ≤ (start :: (tl ++ tl2a)).length := by
        simp only [List.length_cons, List.length_append]
        simp only [List.length_cons] at hlt
        omega
      have hclosed2 : ∀ j, j < pos + 1 →
          ∀ e ∈ (g.getD ((start :: (tl ++ tl2a)).getD j 0) default).e,
            e.dst ∈ start :: (tl ++ tl2a) := by
        intro j hj e he
        have hgetD : (start :: (tl ++ tl2a)).getD j 0 = (start :: tl).getD j 0 := by
          rw [show start :: (tl ++ tl2a) = (start :: tl) ++ tl2a from rfl]
          exact List.getD_append _ _ _ _ (by omega)
        rw [hgetD] at he
        rcases Nat.lt_or_ge j pos with hjp | hjp
        · have := hclosed j hjp e he
          rcases List.mem_cons.mp this with h | h
          · exact h ▸ List.mem_cons_self _ _
          · exact List.mem_cons_of_mem _ (List.mem_append_left tl2a h)
        · have hjeq : j = pos := by omega
          subst hjeq
          exact h5 e he
      have hfuel2 : ((start :: (tl ++ tl2a)).length - (pos + 1)) +
          vis2.count false ≤ fuel := by
        simp only [List.length_cons, List.length_append] at hfuel hlt ⊢
        simp only [List.length_append] at h6
        omega
      obtain ⟨tl2b, heq2, hnd2, hreach2, hclosed3⟩ :=
        ih (tl ++ tl2a) (pos + 1) vis2 hpos2 h1 h2 h3 h4 hclosed2 hfuel2
      refine ⟨tl2a ++ tl2b, ?_, ?_, ?_, ?_⟩
      · rw [heq2]
        simp [List.append_assoc]
      · have := hnd2
        simpa [List.append_assoc] using this
      · intro x hx
        refine hreach2 x ?_
        simpa [List.append_assoc] using hx
      · intro j hj e he
        have hj2 : j < (start :: ((tl ++ tl2a) ++ tl2b)).length := by
          simpa [List.append_assoc] using hj
        have hget : (start :: (tl ++ (tl2a ++ tl2b))).getD j 0 =
            (start :: ((tl ++ tl2a) ++ tl2b)).getD j 0 := by
          rw [List.append_assoc]
        rw [hget] at he
        have := hclosed3 j hj2 e he
        simpa [List.append_assoc] using this
    · rw [if_neg hlt]
      have hpe : pos = (start :: tl).length := by omega
      refine ⟨[], ?_, ?_, ?_, ?_⟩
      · simp
      · simpa using hnd
      · intro x hx
        exact (hreach x (by simpa using hx)).1
      · intro j hj e he
        simp only [List.append_nil] at hj he ⊢
        exact hclosed j (by omega) e he

end Graph

namespace Graph

theorem getD_replicate_false (n x : Nat) :
    (List.replicate n false).getD x false = false := by
  rcases Nat.lt_or_ge x n with h | h
  · rw [List.getD_eq_getElem _ _ (by simpa using h)]
    simp
  · rw [List.getD_eq_default _ _ (by simpa using h)]

/-- A two-node graph: the start node 0 has one rune edge to the accepting
    node 1, and nothing points back at the start node. -/
def gW : List NNode :=
  [{ accept := -1, e := [{ kind := 1, dst := 1, r := 7, a := 0, lim := [] }] },
   { accept := 0, e := [] }]

end Graph

/-- C10 (amended): provided the start node is not the destination of any edge
    (as holds for the root produced by `BuildNfa`, which is freshly allocated
    and never targeted), `compactGraph` returns a duplicate-free list whose
    first element is the start node, whose members are exactly the nodes
    reachable from the start, and whose renumbering is consistent: the node
    stored at index `i` receives id `i`.  Without that proviso the start node
    can be appended twice and the invariant fails. -/
theorem Graph.compactGraph_reachable_renumbering (g : List Graph.NNode)
    (start : Nat) (hs : start < g.length)
    (hwf : ∀ n ∈ g, ∀ e ∈ n.e, e.dst < g.length)
    (hstart : ∀ n ∈ g, ∀ e ∈ n.e, e.dst ≠ start) :
    (Graph.compactOrder g start (g.length + 1)).Nodup ∧
    (Graph.compactOrder g start (g.length + 1)).getD 0 0 = start ∧
    (∀ x, x ∈ Graph.compactOrder g start (g.length + 1) ↔
      Relation.ReflTransGen (Graph.gstep g) start x) ∧
    (∀ i, i < (Graph.compactOrder g start (g.length + 1)).length →
      Graph.lastIndexOf (Graph.compactOrder g start (g.length + 1))
        ((Graph.compactOrder g start (g.length + 1)).getD i 0) = some i) := by
  have hmemg : ∀ u, u < g.length → g.getD u default ∈ g := by
    intro u hu
    rw [List.getD_eq_getElem _ _ hu]
    exact List.getElem_mem hu
  have hwf2 : ∀ u, u < g.length → ∀ e ∈ (g.getD u default).e,
      e.dst < g.length := fun u hu e he => hwf _ (hmemg u hu) e he
  have hstart2 : ∀ u, u < g.length → ∀ e ∈ (g.getD u default).e,
      e.dst ≠ start := fun u hu e he => hstart _ (hmemg u hu) e he
  obtain ⟨tl2, heq, hnd, hreach, hclosed⟩ :=
    Graph.compactLoop_spec g start hwf2 hstart2 (g.length + 1) [] 0
      (List.replicate g.length false)
      (by simp)
      (by simp)
      (by intro x; rw [Graph.getD_replicate_false]; simp)
      (by simp)
      (by
        intro x hx
        rw [List.mem_singleton] at hx
        subst hx
        exact ⟨Relation.ReflTransGen.refl, hs⟩)
      (by intro j hj; omega)
      (by simp; omega)
  have hO : Graph.compactOrder g start (g.length + 1) = start :: ([] ++ tl2) := heq
  rw [hO]
  have hback : ∀ x, Relation.ReflTransGen (Graph.gstep g) start x →
      x ∈ start :: ([] ++ tl2) := by
    intro x h
    induction h with
    | refl => exact List.mem_cons_self _ _
    | tail h1 h2 ihm =>
      obtain ⟨j, hj, hjb⟩ := List.getElem_of_mem ihm
      obtain ⟨e, he, hdst⟩ := h2
      have hmem := hclosed j hj e
        (by rw [List.getD_eq_getElem _ _ hj, hjb]; exact he)
      rw [hdst] at hmem
      exact hmem
  refine ⟨hnd, List.getD_cons_zero, ?_, ?_⟩
  · intro x
    exact ⟨fun hx => hreach x hx, fun hx => hback x hx⟩
  · intro i hi
    exact Graph.lastIndexOf_nodup _ hnd i hi

/-- Witness for the C10 theorem at the two-node graph `gW` with start 0. -/
theorem Graph.compactGraph_reachable_renumbering_witness :
    ((0 < Graph.gW.length) ∧
     (∀ n ∈ Graph.gW, ∀ e ∈ n.e, e.dst < Graph.gW.length) ∧
     (∀ n ∈ Graph.gW, ∀ e ∈ n.e, e.dst ≠ 0)) ∧
    ((Graph.compactOrder Graph.gW 0 (Graph.gW.length + 1)).Nodup ∧
     (Graph.compactOrder Graph.gW 0 (Graph.gW.length + 1)).getD 0 0 = 0 ∧
     (∀ x, x ∈ Graph.compactOrder Graph.gW 0 (Graph.gW.length + 1) ↔
       Relation.ReflTransGen (Graph.gstep Graph.gW) 0 x) ∧
     (∀ i, i < (Graph.compactOrder Graph.gW 0 (Graph.gW.length + 1)).length →
       Graph.lastIndexOf (Graph.compactOrder Graph.gW 0 (Graph.gW.length + 1))
         ((Graph.compactOrder Graph.gW 0 (Graph.gW.length + 1)).getD i 0) =
         some i)) :=
  ⟨⟨by decide, by decide, by decide⟩,
   Graph.compactGraph_reachable_renumbering Graph.gW 0 (by decide) (by decide)
     (by decide)⟩

namespace Parser

/-- The parse errors of parser.go. -/
inductive PBase where
  | UnmatchedRBrace
  | UnmatchedLBrace
  | UnexpectedEOF
  | UnexpectedNewline
deriving DecidableEq, Repr

/-- The stored error: `fmt.Errorf("%d:%d: %w", p.line, p.col, err)`. -/
structure PErr where
  line : Nat
  col : Nat
  e : PBase
deriving DecidableEq, Repr

/-- The parser state: `input` is the remaining reader content. -/
structure PState where
  input : List Char
  line : Nat
  col : Nat
  char : Nat
  r : Char
  err : Option PErr
  eof : Bool
  isUnread : Bool
deriving DecidableEq, Repr

def lbraceChar : Char := Char.ofNat 123
def rbraceChar : Char := Char.ofNat 125

/-- `parser.reportError`: only the first error is kept, wrapped with its
    line:column location. -/
def reportError (p : PState) (e : PBase) : PState :=
  if p.err.isSome then p
  else { p with err := some ⟨p.line, p.col, e⟩ }

/-- `parser.read`. -/
def read (p : PState) : Bool × PState :=
  if p.err.isSome ∨ p.eof then (false, p)
  else if p.isUnread then (true, { p with isUnread := false })
  else
    match p.input with
    | [] => (false, { p with eof := true })
    | c :: rest =>
      if c = '\n' then
        (true, { p with input := rest, char := p.char + 1, r := c,
                        line := p.line + 1, col := 0 })
      else
        (true, { p with input := rest, char := p.char + 1, r := c,
                        col := p.col + 1 })

/-- `parser.unread`. -/
def unread (p : PState) : PState := { p with isUnread := true }

/-- `isSpace`. -/
def isSpace (r : Char) : Bool :=
  r = ' ' || r = '\n' || r = '\t' || r = '\r'

/-- `parser.readNextNonWs`. -/
def readNextNonWs : Nat → PState → Bool × PState
  | 0, p => (false, p)
  | fuel + 1, p =>
    let q := read p
    if q.1 then
      if isSpace q.2.r then readNextNonWs fuel q.2 else (true, q.2)
    else (false, q.2)

/-- `parser.mustRead`. -/
def mustRead (p : PState) : Bool × PState :=
  let q := read p
  (q.1, if q.1 then q.2 else reportError q.2 .UnexpectedEOF)

/-- `parser.mustReadNextNonWs`. -/
def mustReadNextNonWs (fuel : Nat) (p : PState) : Bool × PState :=
  let q := readNextNonWs fuel p
  (q.1, if q.1 then q.2 else reportError q.2 .UnexpectedEOF)

/-- `trimSpaces`. -/
def trimSpaces (buf : List Char) : List Char :=
  ((buf.dropWhile isSpace).reverse.dropWhile isSpace).reverse

def readRemAux : Nat → PState → List Char → List Char × PState
  | 0, p, buf => (buf, p)
  | fuel + 1, p, buf =>
    let q := read p
    if q.1 then readRemAux fuel q.2 (buf ++ [q.2.r]) else (buf, q.2)

/-- `parser.readRemaining`. -/
def readRemaining (fuel : Nat) (p : PState) : List Char × PState :=
  let q := readNextNonWs fuel p
  let z := if q.1 then readRemAux fuel q.2 [q.2.r] else ([], q.2)
  (trimSpaces z.1 ++ ['\n'], z.2)

/-- The `switch` of `readCode` that tracks brace nesting. -/
def bumpNesting (r : Char) (nesting : Int) : Int :=
  if r = lbraceChar then nesting + 1
  else if r = rbraceChar then nesting - 1
  else nesting

def readCodeAux :
    Nat → Bool → PState → List Char → Int → Option (List Char × Int) × PState
  | 0, _, p, buf, nesting => (some (buf, nesting), p)
  | fuel + 1, ok, p, buf, nesting =>
    if ok ∧ (p.r ≠ '\n' ∨ 0 < nesting) then
      if bumpNesting p.r nesting < 0 then (none, reportError p .UnmatchedRBrace)
      else
        let q := read p
        readCodeAux fuel q.1 q.2 (buf ++ [p.r]) (bumpNesting p.r nesting)
    else (some (buf, nesting), p)

/-- `parser.readCode`. -/
def readCode (fuel : Nat) (p : PState) : List Char × PState :=
  let m := mustReadNextNonWs fuel p
  match readCodeAux fuel m.1 m.2 [] 0 with
  | (none, p) => ([], p)
  | (some (buf, nesting), p) =>
    if 0 < nesting then ([], reportError p .UnmatchedLBrace)
    else
      let buf2 := trimSpaces buf
      if buf2 = [] then ([], p)
      else
        let buf3 :=
          if buf2.getD 0 ' ' = lbraceChar ∧ buf2.getLastD ' ' = rbraceChar then
            trimSpaces ((buf2.drop 1).dropLast)
          else buf2
        if buf3 = [] then ([], p) else (buf3 ++ ['\n'], p)

def readRegexAux :
    Nat → Bool → PState → Char → Bool → List Char → Option (List Char) × PState
  | 0, _, p, _, _, regex => (some regex, p)
  | fuel + 1, ok, p, delim, isEscape, regex =>
    if ok ∧ (p.r ≠ delim ∨ isEscape) then
      if p.r = '\n' then (none, reportError p .UnexpectedNewline)
      else
        let isE := p.r = '\\'
        let regex2 := regex ++ [p.r]
        let m := mustRead p
        readRegexAux fuel m.1 m.2 delim isE regex2
    else (some regex, p)

/-- `parser.readRegex`: on success the rule id is `p.char`, the reader's
    rune offset after the closing delimiter. -/
def readRegex (fuel : Nat) (p : PState) (delim : Char) :
    Option (Nat × List Char) × PState :=
  let m := mustRead p
  match readRegexAux fuel m.1 m.2 delim false [] with
  | (none, q) => (none, q)
  | (some regex, q) =>
    if q.err.isSome then (none, q) else (some (q.char, regex), q)

/-- `parser.isNextSubExp`. -/
def isNextSubExp (fuel : Nat) (p : PState) : Bool × PState :=
  let m := mustReadNextNonWs fuel p
  if m.1 then
    if m.2.r = '<' then (true, m.2) else (false, unread m.2)
  else (false, m.2)

/-- The `NexProgram` tree. -/
inductive NexProg where
  | node (id : Nat) (regex startCode endCode userCode : List Char)
      (children : List NexProg)

def NexProg.id : NexProg → Nat
  | .node i _ _ _ _ _ => i

def NexProg.childIds : NexProg → List Nat
  | .node _ _ _ _ _ cs => cs.map (fun c => c.id)

mutual

/-- `parser.parseSubExp`: returns (startCode, children, endCode). -/
def parseSubExp : Nat → PState → (List Char × List NexProg × List Char) × PState
  | 0, p => (([], [], []), p)
  | fuel + 1, p =>
    let s := readCode fuel p
    let l := parseExpListAux fuel s.2 true []
    let e := readCode fuel l.2
    ((s.1, l.1, e.1), e.2)

/-- The loop of `parser.parseExpList`. -/
def parseExpListAux : Nat → PState → Bool → List NexProg → List NexProg × PState
  | 0, p, _, acc => (acc, p)
  | fuel + 1, p, isSub, acc =>
    let m := mustReadNextNonWs fuel p
    if m.1 then
      if isSub ∧ m.2.r = '>' then (acc, m.2)
      else
        let rr := readRegex fuel m.2 m.2.r
        match rr.1 with
        | none => (acc, rr.2)
        | some (id, regex) =>
          if isSub = false ∧ regex = [] then (acc, rr.2)
          else
            let c := parseExpOne fuel rr.2 id regex
            parseExpListAux fuel c.2 isSub (acc ++ [c.1])
    else (acc, m.2)

/-- `parser.parseExp` applied to a freshly read child rule. -/
def parseExpOne (fuel : Nat) (p : PState) (id : Nat) (regex : List Char) :
    NexProg × PState :=
  match fuel with
  | 0 => (.node id regex [] [] [] [], p)
  | fuel + 1 =>
    let q := isNextSubExp fuel p
    if q.1 then
      let s := parseSubExp fuel q.2
      (.node id regex s.1.1 s.1.2.2 [] s.1.2.1, s.2)
    else
      let c := readCode fuel q.2
      (.node id regex c.1 [] [] [], c.2)

end

/-- `parser.parseRoot`. -/
def parseRoot (fuel : Nat) (p : PState) : NexProg × PState :=
  let q := isNextSubExp fuel p
  let z :=
    if q.1 then
      let s := parseSubExp fuel q.2
      ((s.1.1, s.1.2.1, s.1.2.2), s.2)
    else
      let l := parseExpListAux fuel q.2 false []
      ((([] : List Char), l.1, ([] : List Char)), l.2)
  let u := readRemaining fuel z.2
  (.node 0 [] z.1.1 z.1.2.2 u.1 z.1.2.1, u.2)

/-- The initial parser state of `ParseNex` over a given input. -/
def initP (input : List Char) : PState :=
  { input := input, line := 1, col := 0, char := 0, r := Char.ofNat 0,
    err := none, eof := false, isUnread := false }

/-- `ParseNex` up to its parse phase: returns the stored error if the parse
    recorded one. -/
def parseNex (fuel : Nat) (input : List Char) : Except PErr NexProg :=
  let z := parseRoot fuel (initP input)
  match z.2.err with
  | some e => .error e
  | none => .ok z.1

/-- `ParseNex` including the downstream build phase, abstracted by `build`
    (`genGraphs` in the code): the build runs only when the parse stored no
    error. -/
def parseNexThen (fuel : Nat) (input : List Char)
    (build : NexProg → Option PErr) : Except PErr NexProg :=
  let z := parseRoot fuel (initP input)
  match z.2.err with
  | some e => .error e
  | none =>
    match build z.1 with
    | some e2 => .error e2
    | none => .ok z.1

end Parser

namespace Parser

/-- A minimal well-formed Nex source: one rule `/a/` with action `x`, the
    empty-regex terminator, and trailing user code. -/
def inputC7 : List Char := "/a/ x\n//\npackage main\n".toList

end Parser

/-- C7 counterexample: parsing `/a/ x\n//\npackage main\n` succeeds and the
    single rule of the root scope has id 3 — the reader's rune offset just
    after the closing delimiter of its pattern (`readRegex` stores `p.char`)
    — not its source-order rank 0. -/
theorem Parser.rule_id_is_char_offset :
    (Parser.parseNex 64 Parser.inputC7).toOption.map Parser.NexProg.childIds =
      some [3] ∧ (3 : Nat) ≠ 0 := by
  refine ⟨by decide, by decide⟩

/-- C9: (1) `reportError` keeps only the first error: once `p.err` is set it
    is never replaced; (2) the first error is stored wrapped with its
    line:column location; (3) when the parse phase records an error,
    `ParseNex` returns that error without running the downstream build
    phase (`genGraphs`), whatever that phase would do. -/
theorem Parser.first_error_wins_and_blocks_build (p : Parser.PState)
    (eb : Parser.PBase) (fuel : Nat) (input : List Char)
    (build : Parser.NexProg → Option Parser.PErr) (e : Parser.PErr) :
    (p.err.isSome = true → Parser.reportError p eb = p) ∧
    (p.err = none →
      (Parser.reportError p eb).err = some ⟨p.line, p.col, eb⟩) ∧
    ((Parser.parseRoot fuel (Parser.initP input)).2.err = some e →
      Parser.parseNexThen fuel input build = .error e) := by
  refine ⟨?_, ?_, ?_⟩
  · intro h
    rw [Parser.reportError, if_pos h]
  · intro h
    rw [Parser.reportError, if_neg (by rw [h]; simp)]
  · intro h
    rw [Parser.parseNexThen]
    rw [h]

/-- Witness for the C9 theorem: a state that already stores an error keeps it
    when a second error is reported; a fresh state stores the error with its
    location; on the truncated source `/ab` the parse stops at the first
    error `1:3: unexpected EOF` and `ParseNex` returns it regardless of the
    build phase. -/
theorem Parser.first_error_wins_and_blocks_build_witness :
    Parser.reportError
        (Parser.reportError (Parser.initP []) .UnexpectedEOF) .UnmatchedLBrace =
      Parser.reportError (Parser.initP []) .UnexpectedEOF ∧
    (Parser.reportError (Parser.initP []) .UnexpectedEOF).err =
      some ⟨1, 0, .UnexpectedEOF⟩ ∧
    Parser.parseNexThen 64 "/ab".toList (fun _ => none) =
      .error ⟨1, 3, .UnexpectedEOF⟩ :=
  ⟨(Parser.first_error_wins_and_blocks_build
      (Parser.reportError (Parser.initP []) .UnexpectedEOF) .UnmatchedLBrace
      64 [] (fun _ => none) ⟨1, 0, .UnexpectedEOF⟩).1 (by decide),
   (Parser.first_error_wins_and_blocks_build
      (Parser.initP []) .UnexpectedEOF 64 [] (fun _ => none)
      ⟨1, 0, .UnexpectedEOF⟩).2.1 rfl,
   (Parser.first_error_wins_and_blocks_build
      (Parser.initP []) .UnexpectedEOF 64 "/ab".toList (fun _ => none)
      ⟨1, 3, .UnexpectedEOF⟩).2.2 (by decide)⟩

namespace Parser

theorem read_char_le (p : PState) : p.char ≤ (read p).2.char := by
  rw [read]
  split
  · exact le_refl _
  · split
    · exact le_refl _
    · split
      · exact le_refl _
      · split
        · dsimp only
          omega
        · dsimp only
          omega

theorem read_success_unread (p : PState) (h : (read p).1 = true) :
    (read p).2.isUnread = false := by
  rw [read] at h ⊢
  split at h
  · exact absurd h (by simp)
  · split at h
    · rename_i h1 h2
      rw [if_neg h1, if_pos h2]
    · rename_i h1 h2
      rw [if_neg h1, if_neg h2]
      split at h
      · exact absurd h (by simp)
      · rename_i heq
        split
        · dsimp only
          simpa using h2
        · dsimp only
          simpa using h2

theorem read_strict (p : PState) (hu : p.isUnread = false)
    (h : (read p).1 = true) : p.char < (read p).2.char := by
  rw [read] at h ⊢
  split at h
  · exact absurd h (by simp)
  · rename_i h1
    rw [if_neg h1]
    split at h
    · rename_i h2
      exact absurd h2 (by rw [hu]; simp)
    · rename_i h2
      rw [if_neg h2]
      split at h
      · exact absurd h (by simp)
      · rename_i heq
        split
        · dsimp only
          omega
        · dsimp only
          omega

theorem reportError_char (p : PState) (e : PBase) :
    (reportError p e).char = p.char := by
  rw [reportError]
  split
  · rfl
  · rfl

theorem readNextNonWs_le (fuel : Nat) :
    ∀ p : PState, p.char ≤ (readNextNonWs fuel p).2.char := by
  induction fuel with
  | zero => intro p; exact le_refl _
  | succ fuel ih =>
    intro p
    rw [readNextNonWs]
    have h1 := read_char_le p
    split
    · split
      · exact le_trans h1 (ih _)
      · exact h1
    · exact h1

theorem readNextNonWs_success_unread (fuel : Nat) :
    ∀ p : PState, (readNextNonWs fuel p).1 = true →
      (readNextNonWs fuel p).2.isUnread = false := by
  induction fuel with
  | zero => intro p h; exact absurd h (by simp [readNextNonWs])
  | succ fuel ih =>
    intro p h
    rw [readNextNonWs] at h ⊢
    split at h
    · rename_i hok
      split at h
      · rename_i hsp
        rw [if_pos hok, if_pos hsp]
        exact ih _ h
      · rename_i hsp
        rw [if_pos hok, if_neg hsp]
        exact read_success_unread p hok
    · exact absurd h (by simp)

theorem mustRead_le (p : PState) : p.char ≤ (mustRead p).2.char := by
  rw [mustRead]
  have h1 := read_char_le p
  dsimp only
  split
  · exact h1
  · rw [reportError_char]
    exact h1

theorem mustRead_success_state (p : PState) (h : (mustRead p).1 = true) :
    (mustRead p).2 = (read p).2 ∧ (read p).1 = true := by
  rw [mustRead] at h ⊢
  dsimp only at h ⊢
  refine ⟨?_, h⟩
  rw [if_pos h]

theorem mustReadNextNonWs_le (fuel : Nat) (p : PState) :
    p.char ≤ (mustReadNextNonWs fuel p).2.char := by
  rw [mustReadNextNonWs]
  have h1 := readNextNonWs_le fuel p
  dsimp only
  split
  · exact h1
  · rw [reportError_char]
    exact h1

theorem mustReadNextNonWs_success (fuel : Nat) (p : PState)
    (h : (mustReadNextNonWs fuel p).1 = true) :
    (mustReadNextNonWs fuel p).2 = (readNextNonWs fuel p).2 ∧
      (readNextNonWs fuel p).1 = true := by
  rw [mustReadNextNonWs] at h ⊢
  dsimp only at h ⊢
  refine ⟨?_, h⟩
  rw [if_pos h]

end Parser

namespace Parser

theorem readRegexAux_le (fuel : Nat) :
    ∀ (ok : Bool) (p : PState) (delim : Char) (esc : Bool) (rg : List Char),
      p.char ≤ (readRegexAux fuel ok p delim esc rg).2.char := by
  induction fuel with
  | zero => intro ok p delim esc rg; exact le_refl _
  | succ fuel ih =>
    intro ok p delim esc rg
    rw [readRegexAux]
    split
    · split
      · rw [reportError_char]
      · exact le_trans (mustRead_le p) (ih _ _ _ _ _)
    · exact le_refl _

theorem readRegex_le (fuel : Nat) (p : PState) (delim : Char) :
    p.char ≤ (readRegex fuel p delim).2.char := by
  rw [readRegex]
  have h1 := mustRead_le p
  have h2 := readRegexAux_le fuel (mustRead p).1 (mustRead p).2 delim false []
  split
  · rename_i heq
    rw [heq] at h2
    dsimp only at h2 ⊢
    omega
  · rename_i regex q heq
    rw [heq] at h2
    dsimp only at h2 ⊢
    split
    · dsimp only
      omega
    · dsimp only
      omega

theorem readRegexAux_err (fuel : Nat) :
    ∀ (p : PState) (delim : Char) (esc : Bool) (rg : List Char),
      (readRegexAux fuel false p delim esc rg) = (some rg, p) := by
  intro p delim esc rg
  cases fuel with
  | zero => rfl
  | succ fuel =>
    rw [readRegexAux]
    rw [if_neg (by simp)]

theorem readRegex_success (fuel : Nat) (p : PState) (delim : Char)
    (id : Nat) (rg : List Char)
    (h : (readRegex fuel p delim).1 = some (id, rg)) :
    id = (readRegex fuel p delim).2.char ∧
      (p.isUnread = false → p.char < (readRegex fuel p delim).2.char) := by
  rcases haux : readRegexAux fuel (mustRead p).1 (mustRead p).2 delim false []
    with ⟨o, q⟩
  rcases o with - | regex
  · have hR : readRegex fuel p delim = (none, q) := by
      rw [readRegex, haux]
    rw [hR] at h
    exact absurd h (by simp)
  · by_cases herr : q.err.isSome = true
    · have hR : readRegex fuel p delim = (none, q) := by
        rw [readRegex, haux]
        dsimp only
        rw [if_pos herr]
      rw [hR] at h
      exact absurd h (by simp)
    · have hR : readRegex fuel p delim = (some (q.char, regex), q) := by
        rw [readRegex, haux]
        dsimp only
        rw [if_neg herr]
      rw [hR] at h ⊢
      have hpair : q.char = id ∧ regex = rg := by simpa using h
      dsimp only
      refine ⟨hpair.1.symm, ?_⟩
      intro hu
      by_cases hm : (mustRead p).1 = true
      · obtain ⟨hst, hrd⟩ := mustRead_success_state p hm
        have h1 := read_strict p hu hrd
        have h2 := readRegexAux_le fuel (mustRead p).1 (mustRead p).2 delim false []
        rw [haux] at h2
        rw [hst] at h2
        dsimp only at h2
        omega
      · have hm2 : (mustRead p).1 = false := by
          cases hb : (mustRead p).1
          · rfl
          · exact absurd hb hm
        rw [hm2] at haux
        rw [readRegexAux_err fuel (mustRead p).2 delim false []] at haux
        have hq : q = (mustRead p).2 := by
          have hh := haux
          simp only [Prod.mk.injEq] at hh
          exact hh.2.symm
        have hrdf : (read p).1 = false := hm2
        have herr2 : (mustRead p).2.err.isSome = true := by
          rw [mustRead]
          dsimp only
          rw [if_neg (by rw [hrdf]; exact Bool.false_ne_true)]
          rw [reportError]
          split
          · assumption
          · simp
        rw [hq] at herr
        exact absurd herr2 herr

end Parser

namespace Parser

theorem readCodeAux_le (fuel : Nat) :
    ∀ (ok : Bool) (p : PState) (buf : List Char) (n : Int),
      p.char ≤ (readCodeAux fuel ok p buf n).2.char := by
  induction fuel with
  | zero => intro ok p buf n; exact le_refl _
  | succ fuel ih =>
    intro ok p buf n
    rw [readCodeAux]
    split
    · split
      · dsimp only
        rw [reportError_char]
      · exact le_trans (read_char_le p) (ih _ _ _ _)
    · exact le_refl _

theorem readCode_le (fuel : Nat) (p : PState) :
    p.char ≤ (readCode fuel p).2.char := by
  rw [readCode]
  have h1 := mustReadNextNonWs_le fuel p
  have h2 := readCodeAux_le fuel (mustReadNextNonWs fuel p).1
    (mustReadNextNonWs fuel p).2 [] 0
  rcases haux : readCodeAux fuel (mustReadNextNonWs fuel p).1
    (mustReadNextNonWs fuel p).2 [] 0 with ⟨o, q⟩
  rw [haux] at h2
  try dsimp only at h2
  rcases o with - | ⟨buf, nesting⟩
  · try dsimp only
    omega
  · try dsimp only
    split
    · rw [reportError_char]
      omega
    · split
      · try dsimp only
        omega
      · split
        · split
          · try dsimp only
            omega
          · try dsimp only
            omega
        · try dsimp only
          omega

theorem readRemAux_le (fuel : Nat) :
    ∀ (p : PState) (buf : List Char),
      p.char ≤ (readRemAux fuel p buf).2.char := by
  induction fuel with
  | zero => intro p buf; exact le_refl _
  | succ fuel ih =>
    intro p buf
    rw [readRemAux]
    split
    · exact le_trans (read_char_le p) (ih _ _)
    · exact read_char_le p

theorem readRemaining_le (fuel : Nat) (p : PState) :
    p.char ≤ (readRemaining fuel p).2.char := by
  rw [readRemaining]
  have h1 := readNextNonWs_le fuel p
  try dsimp only
  split
  · exact le_trans h1 (readRemAux_le fuel _ _)
  · exact h1

theorem unread_char (p : PState) : (unread p).char = p.char := rfl

theorem isNextSubExp_le (fuel : Nat) (p : PState) :
    p.char ≤ (isNextSubExp fuel p).2.char := by
  rw [isNextSubExp]
  have h1 := mustReadNextNonWs_le fuel p
  try dsimp only
  split
  · split
    · exact h1
    · rw [unread_char]
      exact h1
  · exact h1

theorem parse_mono (fuel : Nat) :
    (∀ p : PState, p.char ≤ (parseSubExp fuel p).2.char) ∧
    (∀ (p : PState) (isSub : Bool) (acc : List NexProg),
      p.char ≤ (parseExpListAux fuel p isSub acc).2.char) ∧
    (∀ (p : PState) (id : Nat) (rg : List Char),
      p.char ≤ (parseExpOne fuel p id rg).2.char) := by
  induction fuel with
  | zero =>
    refine ⟨fun p => le_refl _, fun p isSub acc => le_refl _,
      fun p id rg => le_refl _⟩
  | succ fuel ih =>
    obtain ⟨ihS, ihL, ihO⟩ := ih
    have hS : ∀ p : PState, p.char ≤ (parseSubExp (fuel + 1) p).2.char := by
      intro p
      rw [parseSubExp]
      dsimp only
      exact le_trans (readCode_le fuel p)
        (le_trans (ihL _ _ _) (readCode_le fuel _))
    have hL : ∀ (p : PState) (isSub : Bool) (acc : List NexProg),
        p.char ≤ (parseExpListAux (fuel + 1) p isSub acc).2.char := by
      intro p isSub acc
      rw [parseExpListAux]
      have h1 := mustReadNextNonWs_le fuel p
      dsimp only
      split
      · split
        · exact h1
        · have h2 := readRegex_le fuel (mustReadNextNonWs fuel p).2
            (mustReadNextNonWs fuel p).2.r
          split
          · exact le_trans h1 h2
          · split
            · exact le_trans h1 h2
            · exact le_trans h1 (le_trans h2 (le_trans (ihO _ _ _) (ihL _ _ _)))
      · exact h1
    have hO : ∀ (p : PState) (id : Nat) (rg : List Char),
        p.char ≤ (parseExpOne (fuel + 1) p id rg).2.char := by
      intro p id rg
      rw [parseExpOne]
      have h1 := isNextSubExp_le fuel p
      dsimp only
      split
      · exact le_trans h1 (ihS _)
      · exact le_trans h1 (readCode_le fuel _)
    exact ⟨hS, hL, hO⟩

theorem parseExpOne_id (fuel : Nat) (p : PState) (id : Nat) (rg : List Char) :
    (parseExpOne fuel p id rg).1.id = id := by
  cases fuel with
  | zero => rfl
  | succ fuel =>
    rw [parseExpOne]
    dsimp only
    split
    · rfl
    · rfl

end Parser

namespace Parser

theorem mustReadNextNonWs_success_unread (fuel : Nat) (p : PState)
    (h : (mustReadNextNonWs fuel p).1 = true) :
    (mustReadNextNonWs fuel p).2.isUnread = false := by
  obtain ⟨hst, hok⟩ := mustReadNextNonWs_success fuel p h
  rw [hst]
  exact readNextNonWs_success_unread fuel p hok

theorem expList_ids (fuel : Nat) :
    ∀ (p : PState) (isSub : Bool) (acc : List NexProg),
      (∀ a ∈ acc, a.id ≤ p.char) →
      List.Pairwise (fun a b => a.id < b.id) acc →
      List.Pairwise (fun a b => a.id < b.id)
          (parseExpListAux fuel p isSub acc).1 ∧
      (∀ a ∈ (parseExpListAux fuel p isSub acc).1,
        a.id ≤ (parseExpListAux fuel p isSub acc).2.char) := by
  induction fuel with
  | zero =>
    intro p isSub acc hle hpw
    exact ⟨hpw, hle⟩
  | succ fuel ih =>
    intro p isSub acc hle hpw
    rw [parseExpListAux]
    have hmle := mustReadNextNonWs_le fuel p
    split
    · rename_i hok
      split
      · exact ⟨hpw, fun a ha => le_trans (hle a ha) hmle⟩
      · dsimp only
        split
        · rename_i heq
          refine ⟨hpw, ?_⟩
          intro a ha
          have hrle := readRegex_le fuel (mustReadNextNonWs fuel p).2
            (mustReadNextNonWs fuel p).2.r
          exact le_trans (hle a ha) (le_trans hmle hrle)
        · rename_i id regex heq
          split
          · refine ⟨hpw, ?_⟩
            intro a ha
            have hrle := readRegex_le fuel (mustReadNextNonWs fuel p).2
              (mustReadNextNonWs fuel p).2.r
            exact le_trans (hle a ha) (le_trans hmle hrle)
          · have hun : (mustReadNextNonWs fuel p).2.isUnread = false :=
              mustReadNextNonWs_success_unread fuel p hok
            obtain ⟨hid, hstrict⟩ := readRegex_success fuel
              (mustReadNextNonWs fuel p).2 (mustReadNextNonWs fuel p).2.r
              id regex heq
            have hst := hstrict hun
            have hcid := parseExpOne_id fuel
              (readRegex fuel (mustReadNextNonWs fuel p).2
                (mustReadNextNonWs fuel p).2.r).2 id regex
            have hcle := (parse_mono fuel).2.2
              (readRegex fuel (mustReadNextNonWs fuel p).2
                (mustReadNextNonWs fuel p).2.r).2 id regex
            refine ih _ isSub _ ?_ ?_
            · intro a ha
              rcases List.mem_append.mp ha with ha | ha
              · have := hle a ha
                omega
              · rw [List.mem_singleton] at ha
                subst ha
                rw [hcid]
                omega
            · refine List.pairwise_append.mpr ⟨hpw, List.pairwise_singleton _ _, ?_⟩
              intro a ha b hb
              rw [List.mem_singleton] at hb
              subst hb
              rw [hcid]
              have := hle a ha
              omega
    · exact ⟨hpw, fun a ha => le_trans (hle a ha) hmle⟩

end Parser

/-- C7 (amended): for every scope of a Nex program, the ids of the child
    rules produced by `parseExpList` are strictly increasing in source
    order.  A rule's id is `p.char`, the reader's rune offset just after
    the closing delimiter of its pattern — not the rule's source-order
    rank — and offsets only grow as parsing proceeds. -/
theorem Parser.scope_rule_ids_strictly_increasing (fuel : Nat)
    (p : Parser.PState) (isSub : Bool) :
    List.Pairwise (fun a b => Parser.NexProg.id a < Parser.NexProg.id b)
      (Parser.parseExpListAux fuel p isSub []).1 :=
  (Parser.expList_ids fuel p isSub [] (by simp) (by simp)).1
